import Mathlib

/-!
# Verification of the lulzprime prime-counting and prime-resolution core

Shallow embedding of the algorithmic core of the `lulzprime` repository
(`src/lulzprime/pi.py`, `src/lulzprime/lehmer.py`, `src/lulzprime/lookup.py`)
together with proofs relating the embedded code to a mathematical reference
prime-counting function.

Modelling conventions:
* Python integers are `ℕ` where the code only ever sees non-negative values,
  and `ℤ` where sign matters (validation wrappers, `phi`, `pi_range`).
* A Python boolean buffer (`list[bool]`) is modelled by its indexing
  function `ℕ → Bool`; an element assignment becomes a pointwise update.
  All reads and writes performed by the code are in range, so the
  function view is faithful.
* `range(a, b, step)` is modelled by `pyRange a b step`.
* A Python `dict` used as a memo table is modelled by an association list,
  threaded through the recursion in state-passing style (the dict is
  mutated in place in Python).
* `int(math.sqrt(x))` / `math.isqrt(x)` are modelled by `Nat.sqrt x`
  (the exact integer square root, which is what the expression computes
  on the code's supported range).
* Exceptions (`raise ValueError` etc.) are modelled with `Except String`.
-/

namespace Lulzprime

/-! ## Generic counting preliminaries -/

/-- `pyRange a b step` models Python `range(a, b, step)` for `step > 0`:
the list `a, a + step, ...` of elements `< b`. -/
def pyRange (a b step : ℕ) : List ℕ :=
  List.range' a ((b - a + step - 1) / step) step

/-- Decidable primality as a `Bool`, the mathematical reference for
`is_prime`. -/
def isPrimeB (n : ℕ) : Bool := decide (Nat.Prime n)

/-- `cntIn a n P` counts the `k` with `a ≤ k < a + n` satisfying `P`. -/
def cntIn (a n : ℕ) (P : ℕ → Bool) : ℕ := (List.range' a n).countP P

/-- The mathematical reference prime-counting function:
`piRef n` = number of primes `p ≤ n`. -/
def piRef (n : ℕ) : ℕ := cntIn 1 n isPrimeB

theorem mem_pyRange_one {a b m : ℕ} : m ∈ pyRange a b 1 ↔ a ≤ m ∧ m < b := by
  unfold pyRange
  rw [List.mem_range'_1]
  omega

theorem cntIn_split (a m n : ℕ) (P : ℕ → Bool) :
    cntIn a (m + n) P = cntIn a m P + cntIn (a + m) n P := by
  unfold cntIn
  rw [← List.countP_append, ← List.range'_append]
  simp [Nat.add_comm m n]

theorem cntIn_succ (a n : ℕ) (P : ℕ → Bool) :
    cntIn a (n + 1) P = cntIn a n P + (if P (a + n) then 1 else 0) := by
  unfold cntIn
  rw [List.range'_1_concat, List.countP_append]
  simp [List.countP_cons]

theorem cntIn_congr {a n : ℕ} {P Q : ℕ → Bool}
    (h : ∀ k, a ≤ k → k < a + n → (P k ↔ Q k)) : cntIn a n P = cntIn a n Q := by
  unfold cntIn
  refine List.countP_congr ?_
  intro k hk
  rw [List.mem_range'_1] at hk
  exact h k hk.1 hk.2

theorem cntIn_eq_zero {a n : ℕ} {P : ℕ → Bool}
    (h : ∀ k, a ≤ k → k < a + n → ¬ P k) : cntIn a n P = 0 := by
  unfold cntIn
  rw [List.countP_eq_zero]
  intro k hk
  rw [List.mem_range'_1] at hk
  exact h k hk.1 hk.2

theorem cntIn_le (a n : ℕ) (P : ℕ → Bool) : cntIn a n P ≤ n := by
  unfold cntIn
  calc (List.range' a n).countP P ≤ (List.range' a n).length := List.countP_le_length P
    _ = n := List.length_range' ..

theorem cntIn_pos {a n : ℕ} {P : ℕ → Bool} {k : ℕ} (h1 : a ≤ k) (h2 : k < a + n)
    (hP : P k) : 0 < cntIn a n P := by
  unfold cntIn
  rw [List.countP_pos_iff]
  exact ⟨k, List.mem_range'_1.mpr ⟨h1, h2⟩, hP⟩

/-- Splitting `piRef` at a point: primes up to `b` are primes up to `a`
plus primes in `(a, b]`. -/
theorem piRef_split {a b : ℕ} (h : a ≤ b) :
    piRef b = piRef a + cntIn (a + 1) (b - a) isPrimeB := by
  unfold piRef
  conv_lhs => rw [show b = a + (b - a) by omega]
  rw [cntIn_split, Nat.add_comm 1 a]

theorem piRef_succ (n : ℕ) :
    piRef (n + 1) = piRef n + (if isPrimeB (n + 1) then 1 else 0) := by
  unfold piRef
  rw [cntIn_succ]
  simp [Nat.add_comm 1 n]

theorem piRef_mono {a b : ℕ} (h : a ≤ b) : piRef a ≤ piRef b := by
  rw [piRef_split h]
  omega

theorem piRef_zero : piRef 0 = 0 := rfl

theorem piRef_one : piRef 1 = 0 := by decide

theorem piRef_two : piRef 2 = 1 := by decide

theorem piRef_succ_le (n : ℕ) : piRef (n + 1) ≤ piRef n + 1 := by
  rw [piRef_succ]
  split <;> omega

/-- The prime-counting function is unbounded. -/
theorem piRef_unbounded (k : ℕ) : ∃ N, k ≤ piRef N := by
  induction k with
  | zero => exact ⟨0, Nat.zero_le _⟩
  | succ k ih =>
    obtain ⟨N, hN⟩ := ih
    obtain ⟨p, hle, hp⟩ := Nat.exists_infinite_primes (N + 1)
    refine ⟨p, ?_⟩
    have hsplit := piRef_split (a := N) (b := p) (by omega)
    have hpos : 0 < cntIn (N + 1) (p - N) isPrimeB := by
      refine cntIn_pos (k := p) (by omega) (by omega) ?_
      simpa [isPrimeB] using hp
    omega

/-- Primes in `(q, r]` being absent means `piRef` is flat there. -/
theorem piRef_eq_of_no_prime {q r : ℕ} (h : q ≤ r)
    (hnp : ∀ m, q < m → m ≤ r → ¬ Nat.Prime m) : piRef r = piRef q := by
  rw [piRef_split h, cntIn_eq_zero ?_]
  · omega
  · intro k hk1 hk2
    simp only [isPrimeB, decide_eq_true_eq]
    exact hnp k (by omega) (by omega)

/-- The key "trial division window" fact: for `Nat.sqrt x < n ≤ x`,
`n` is prime iff no prime `p ≤ Nat.sqrt x` divides `n`. -/
theorem prime_iff_no_small_divisor {x n : ℕ} (hlo : Nat.sqrt x < n) (hhi : n ≤ x) :
    Nat.Prime n ↔ ∀ p, Nat.Prime p → p ≤ Nat.sqrt x → ¬ p ∣ n := by
  constructor
  · intro hn p hp hps hdvd
    have := (Nat.prime_dvd_prime_iff_eq hp hn).mp hdvd
    omega
  · intro h
    have h2 : 2 ≤ n := by
      by_contra hc
      have hn1 : n ≤ 1 := by omega
      interval_cases n
      · have : (0 : ℕ) < x := by
          by_contra h0
          have : x = 0 := by omega
          subst this
          simp [Nat.sqrt] at hlo
        have : Nat.sqrt x < 0 := hlo
        omega
      · have : 1 ≤ Nat.sqrt x → False := by omega
        have hx1 : 1 ≤ x := by omega
        have : 1 ≤ Nat.sqrt x := by
          rw [Nat.le_sqrt]
          omega
        omega
    by_contra hnp
    have hmf := Nat.minFac_prime (by omega : n ≠ 1)
    have hdvd := Nat.minFac_dvd n
    have hsq : n.minFac ^ 2 ≤ n := Nat.minFac_sq_le_self (by omega) hnp
    have hle : n.minFac ≤ Nat.sqrt x := by
      rw [Nat.le_sqrt]
      calc n.minFac * n.minFac = n.minFac ^ 2 := by ring
        _ ≤ n := hsq
        _ ≤ x := hhi
    exact h n.minFac hmf hle hdvd

/-! ## Boolean-buffer updates and marking folds -/

/-- Setting index `j` of a boolean buffer to `true`
(`buffer[j] = True` on the function view of the buffer). -/
def updT (comp : ℕ → Bool) (j : ℕ) : ℕ → Bool :=
  fun k => if k = j then true else comp k

theorem foldl_updT (l : List ℕ) (comp : ℕ → Bool) (j : ℕ) :
    (l.foldl updT comp) j = (comp j || decide (j ∈ l)) := by
  induction l generalizing comp with
  | nil => simp
  | cons a t ih =>
    simp only [List.foldl_cons, ih, List.mem_cons, updT]
    by_cases hja : j = a <;> simp [hja]

/-- Membership in a stepped `pyRange` whose start is a multiple of the step:
exactly the multiples of `p` in `[a, b)`. -/
theorem mem_pyRange_step {a b p m : ℕ} (hp : 1 ≤ p) (ha : p ∣ a) :
    m ∈ pyRange a b p ↔ a ≤ m ∧ m < b ∧ p ∣ m := by
  unfold pyRange
  rw [List.mem_range']
  obtain ⟨a0, rfl⟩ := ha
  have hmod := Nat.div_add_mod (b - p * a0 + p - 1) p
  set q := (b - p * a0 + p - 1) / p with hq
  set r := (b - p * a0 + p - 1) % p with hr
  have hrlt : r < p := Nat.mod_lt _ (by omega)
  constructor
  · rintro ⟨i, hi, rfl⟩
    have hmul : p * (i + 1) ≤ p * q := Nat.mul_le_mul_left p (by omega)
    have h1 : p * i + p ≤ p * q := by
      calc p * i + p = p * (i + 1) := by ring
        _ ≤ p * q := hmul
    refine ⟨by omega, by omega, ⟨a0 + i, by ring⟩⟩
  · rintro ⟨hle, hlt, m0, rfl⟩
    have ha0m0 : a0 ≤ m0 := Nat.le_of_mul_le_mul_left hle (by omega)
    have hmm : p * a0 ≤ p * m0 := Nat.mul_le_mul_left p ha0m0
    have e1 : p * (m0 - a0) = p * m0 - p * a0 := Nat.mul_sub p m0 a0
    refine ⟨m0 - a0, ?_, ?_⟩
    · have hlt2 : p * (m0 - a0) < p * q := by omega
      exact Nat.lt_of_mul_lt_mul_left hlt2
    · omega

/-! ## `_simple_sieve` (pi.py lines 32-60) -/

/-- The inner marking loop of `_simple_sieve`:
`for j in range(i*i, limit+1, i): is_composite[j] = True`. -/
def markComposites (limit i : ℕ) (comp : ℕ → Bool) : ℕ → Bool :=
  (pyRange (i * i) (limit + 1) i).foldl updT comp

/-- The composite-marking buffer of `_simple_sieve` after the full sieving
loop `for i in range(2, int(math.sqrt(limit)) + 1)` (integer square root
modelled by `Nat.sqrt`).  Initial buffer: `is_composite[0] = is_composite[1]
= True`, everything else `False`. -/
def simpleSieveComp (limit : ℕ) : ℕ → Bool :=
  (pyRange 2 (Nat.sqrt limit + 1) 1).foldl
    (fun comp i => if comp i then comp else markComposites limit i comp)
    (fun j => j == 0 || j == 1)

/-- `_simple_sieve(limit)`: all primes up to `limit` by sieve of
Eratosthenes (pi.py lines 32-60). -/
def simple_sieve (limit : ℕ) : List ℕ :=
  if limit < 2 then []
  else (pyRange 2 (limit + 1) 1).filter (fun i => !simpleSieveComp limit i)

theorem markComposites_spec (limit i : ℕ) (hi : 1 ≤ i) (comp : ℕ → Bool) (j : ℕ) :
    markComposites limit i comp j
      = (comp j || decide (i * i ≤ j ∧ j ≤ limit ∧ i ∣ j)) := by
  unfold markComposites
  rw [foldl_updT]
  congr 1
  rw [decide_eq_decide]
  rw [mem_pyRange_step hi ⟨i, rfl⟩]
  constructor
  · rintro ⟨h1, h2, h3⟩
    exact ⟨h1, by omega, h3⟩
  · rintro ⟨h1, h2, h3⟩
    exact ⟨h1, by omega, h3⟩


/-- Invariant of the sieving loop: after processing `i = 2, ..., k - 1`, an
index `j` is marked composite iff it is `0` or `1`, or some already-processed
prime `p < k` divides it with `p * p ≤ j ≤ limit`. -/
def SieveInv (limit k : ℕ) (comp : ℕ → Bool) : Prop :=
  ∀ j, comp j = true
    ↔ (j ≤ 1 ∨ ∃ p, Nat.Prime p ∧ p < k ∧ p ∣ j ∧ p * p ≤ j ∧ j ≤ limit)

theorem sieveInv_init (limit : ℕ) :
    SieveInv limit 2 (fun j => j == 0 || j == 1) := by
  intro j
  simp only [Bool.or_eq_true, beq_iff_eq]
  constructor
  · rintro (rfl | rfl) <;> left <;> omega
  · rintro (hj | ⟨p, hp, hlt, _⟩)
    · omega
    · exact absurd hp.two_le (by omega)

theorem sieveInv_step {limit k : ℕ} {comp : ℕ → Bool}
    (h : SieveInv limit k comp) (hk : 2 ≤ k) (hklim : k ≤ Nat.sqrt limit) :
    SieveInv limit (k + 1)
      (if comp k then comp else markComposites limit k comp) := by
  by_cases hck : comp k = true
  · -- `k` was already marked: it is composite, so stepping past it adds no
    -- prime and the invariant carries over unchanged.
    rw [if_pos hck]
    have hknp : ¬ Nat.Prime k := by
      intro hkp
      rcases (h k).mp hck with hk1 | ⟨p, hp, hplt, hpdvd, _, _⟩
      · omega
      · have := (Nat.prime_dvd_prime_iff_eq hp hkp).mp hpdvd
        omega
    intro j
    rw [h j]
    constructor
    · rintro (hj | ⟨p, hp, hlt, hrest⟩)
      · exact Or.inl hj
      · exact Or.inr ⟨p, hp, by omega, hrest⟩
    · rintro (hj | ⟨p, hp, hlt, hrest⟩)
      · exact Or.inl hj
      · refine Or.inr ⟨p, hp, ?_, hrest⟩
        rcases Nat.lt_succ_iff_lt_or_eq.mp hlt with h' | rfl
        · exact h'
        · exact absurd hp hknp
  · -- `k` unmarked: it must be prime, and the marking pass adds exactly the
    -- multiples `j` of `k` with `k * k ≤ j ≤ limit`.
    rw [if_neg hck]
    have hkprime : Nat.Prime k := by
      by_contra hknp
      apply hck
      rw [h k]
      refine Or.inr ⟨k.minFac, Nat.minFac_prime (by omega), ?_, Nat.minFac_dvd k, ?_, ?_⟩
      · exact (Nat.not_prime_iff_minFac_lt hk).mp hknp
      · have hsq := Nat.minFac_sq_le_self (by omega : 0 < k) hknp
        calc k.minFac * k.minFac = k.minFac ^ 2 := by ring
          _ ≤ k := hsq
      · exact le_trans hklim (Nat.sqrt_le_self limit)
    intro j
    rw [markComposites_spec limit k (by omega) comp j]
    simp only [Bool.or_eq_true, decide_eq_true_eq]
    rw [h j]
    constructor
    · rintro ((hj | ⟨p, hp, hlt, hrest⟩) | ⟨hk2, hjlim, hdvd⟩)
      · exact Or.inl hj
      · exact Or.inr ⟨p, hp, by omega, hrest⟩
      · exact Or.inr ⟨k, hkprime, by omega, hdvd, hk2, hjlim⟩
    · rintro (hj | ⟨p, hp, hlt, hdvd, hsq, hjlim⟩)
      · exact Or.inl (Or.inl hj)
      · rcases Nat.lt_succ_iff_lt_or_eq.mp hlt with h' | rfl
        · exact Or.inl (Or.inr ⟨p, hp, h', hdvd, hsq, hjlim⟩)
        · exact Or.inr ⟨hsq, hjlim, hdvd⟩

theorem sieveInv_fold (limit : ℕ) :
    ∀ (n k : ℕ) (comp : ℕ → Bool), 2 ≤ k → k + n ≤ Nat.sqrt limit + 1 →
      SieveInv limit k comp →
      SieveInv limit (k + n)
        ((List.range' k n).foldl
          (fun comp i => if comp i then comp else markComposites limit i comp)
          comp) := by
  intro n
  induction n with
  | zero => intro k comp _ _ h; simpa using h
  | succ n ih =>
    intro k comp hk hbound h
    rw [List.range'_succ]
    rw [List.foldl_cons]
    have hstep := sieveInv_step h hk (by omega)
    have hres := ih (k + 1) _ (by omega) (by omega) hstep
    have harith : k + 1 + n = k + (n + 1) := by omega
    rwa [harith] at hres

theorem simpleSieveComp_spec (limit j : ℕ) :
    simpleSieveComp limit j = true
      ↔ (j ≤ 1 ∨ ∃ p, Nat.Prime p ∧ p ≤ Nat.sqrt limit
            ∧ p ∣ j ∧ p * p ≤ j ∧ j ≤ limit) := by
  unfold simpleSieveComp pyRange
  have hcnt : (Nat.sqrt limit + 1 - 2 + 1 - 1) / 1 = Nat.sqrt limit - 1 := by
    omega
  rw [hcnt]
  by_cases hs : Nat.sqrt limit ≤ 1
  · have h0 : Nat.sqrt limit - 1 = 0 := by omega
    rw [h0]
    have h := sieveInv_init limit
    rw [List.range'_zero, List.foldl_nil]
    rw [h j]
    constructor
    · rintro (hj | ⟨p, hp, hlt, _⟩)
      · exact Or.inl hj
      · exact absurd hp.two_le (by omega)
    · rintro (hj | ⟨p, hp, hle, _⟩)
      · exact Or.inl hj
      · exact absurd hp.two_le (by omega)
  · have hres := sieveInv_fold limit (Nat.sqrt limit - 1) 2 _
      (le_refl 2) (by omega) (sieveInv_init limit)
    have hk : 2 + (Nat.sqrt limit - 1) = Nat.sqrt limit + 1 := by omega
    rw [hk] at hres
    rw [hres j]
    constructor
    · rintro (hj | ⟨p, hp, hlt, hrest⟩)
      · exact Or.inl hj
      · exact Or.inr ⟨p, hp, by omega, hrest⟩
    · rintro (hj | ⟨p, hp, hle, hrest⟩)
      · exact Or.inl hj
      · exact Or.inr ⟨p, hp, by omega, hrest⟩

/-- For `2 ≤ j ≤ limit` the sieve buffer is exact: unmarked iff prime. -/
theorem simpleSieveComp_prime {limit j : ℕ} (h2 : 2 ≤ j) (hj : j ≤ limit) :
    (!simpleSieveComp limit j) = isPrimeB j := by
  rcases hb : simpleSieveComp limit j with _ | _
  · -- unmarked: `j` must be prime
    simp only [Bool.not_false, isPrimeB]
    symm
    rw [decide_eq_true_eq]
    by_contra hnp
    have hmark : simpleSieveComp limit j = true := by
      rw [simpleSieveComp_spec]
      have hsq := Nat.minFac_sq_le_self (by omega : 0 < j) hnp
      have hsq' : j.minFac * j.minFac ≤ j := by
        calc j.minFac * j.minFac = j.minFac ^ 2 := by ring
          _ ≤ j := hsq
      refine Or.inr ⟨j.minFac, Nat.minFac_prime (by omega), ?_, Nat.minFac_dvd j, hsq', hj⟩
      rw [Nat.le_sqrt]
      omega
    rw [hmark] at hb
    exact Bool.noConfusion hb
  · -- marked: `j` must be composite
    have hspec := (simpleSieveComp_spec limit j).mp hb
    simp only [Bool.not_true, isPrimeB]
    symm
    rw [decide_eq_false_iff_not]
    rcases hspec with hj1 | ⟨p, hp, _, hdvd, hsq, _⟩
    · omega
    · intro hjp
      have hpe := (Nat.prime_dvd_prime_iff_eq hp hjp).mp hdvd
      subst hpe
      have := hjp.two_le
      nlinarith [hsq]

theorem simple_sieve_eq_filter (limit : ℕ) :
    simple_sieve limit = (pyRange 2 (limit + 1) 1).filter (fun i => isPrimeB i) := by
  unfold simple_sieve
  by_cases hlim : limit < 2
  · rw [if_pos hlim]
    have hz : (limit + 1 - 2 + 1 - 1) / 1 = 0 := by omega
    unfold pyRange
    rw [hz, List.range'_zero, List.filter_nil]
  · rw [if_neg hlim]
    refine List.filter_congr ?_
    intro i hi
    rw [mem_pyRange_one] at hi
    exact simpleSieveComp_prime hi.1 (by omega)

theorem length_simple_sieve (limit : ℕ) :
    (simple_sieve limit).length = piRef limit := by
  rw [simple_sieve_eq_filter, ← List.countP_eq_length_filter]
  by_cases hlim : limit = 0
  · subst hlim
    decide
  · have hsplit : piRef limit = cntIn 1 1 isPrimeB + cntIn 2 (limit - 1) isPrimeB := by
      unfold piRef
      conv_lhs => rw [show limit = 1 + (limit - 1) by omega]
      rw [cntIn_split]
    rw [hsplit]
    have h1 : cntIn 1 1 isPrimeB = 0 := by decide
    rw [h1]
    unfold pyRange cntIn
    have hc : (limit + 1 - 2 + 1 - 1) / 1 = limit - 1 := by omega
    rw [hc]
    simp

theorem mem_simple_sieve {limit p : ℕ} :
    p ∈ simple_sieve limit ↔ Nat.Prime p ∧ p ≤ limit := by
  rw [simple_sieve_eq_filter, List.mem_filter, mem_pyRange_one]
  simp only [isPrimeB, decide_eq_true_eq]
  constructor
  · rintro ⟨⟨_, h2⟩, hp⟩
    exact ⟨hp, by omega⟩
  · rintro ⟨hp, hle⟩
    exact ⟨⟨hp.two_le, by omega⟩, hp⟩

theorem sorted_simple_sieve (limit : ℕ) :
    List.Pairwise (· < ·) (simple_sieve limit) := by
  rw [simple_sieve_eq_filter]
  exact List.Pairwise.filter _ (List.pairwise_lt_range' ..)

/-! ## `_segmented_sieve` (pi.py lines 63-141) -/

theorem foldl_updT_map (l : List ℕ) (f : ℕ → ℕ) (comp : ℕ → Bool) (j : ℕ) :
    (l.foldl (fun c m => updT c (f m)) comp) j = true
      ↔ (comp j = true ∨ ∃ m ∈ l, f m = j) := by
  induction l generalizing comp with
  | nil => simp
  | cons a t ih =>
    simp only [List.foldl_cons, ih, updT, List.mem_cons]
    by_cases hja : j = f a
    · subst hja
      constructor
      · intro _
        exact Or.inr ⟨a, Or.inl rfl, rfl⟩
      · intro _
        simp
    · simp only [if_neg hja]
      constructor
      · rintro (hc | ⟨m, hm, hfm⟩)
        · exact Or.inl hc
        · exact Or.inr ⟨m, Or.inr hm, hfm⟩
      · rintro (hc | ⟨m, (rfl | hm), hfm⟩)
        · exact Or.inl hc
        · exact absurd hfm.symm hja
        · exact Or.inr ⟨m, hm, hfm⟩

/-- The first multiple of `p` at or after `a`, as computed by
`((a + p - 1) // p) * p`, is the least such multiple. -/
theorem ceil_multiple {a p : ℕ} (hp : 1 ≤ p) :
    a ≤ ((a + p - 1) / p) * p ∧ ((a + p - 1) / p) * p < a + p := by
  have hmod := Nat.div_add_mod (a + p - 1) p
  set q := (a + p - 1) / p
  set r := (a + p - 1) % p
  have hrlt : r < p := Nat.mod_lt _ (by omega)
  have hcomm : q * p = p * q := Nat.mul_comm q p
  omega

/-- The multiples of `p` enumerated by one segment-marking pass are exactly
the multiples of `p` inside `[a, e]`. -/
theorem segMark_window {a e p m : ℕ} (hp : 1 ≤ p) :
    m ∈ pyRange (((a + p - 1) / p) * p) (e + 1) p ↔ (a ≤ m ∧ m ≤ e ∧ p ∣ m) := by
  have hceil := ceil_multiple (a := a) hp
  have hdvd : p ∣ ((a + p - 1) / p) * p := dvd_mul_left p ((a + p - 1) / p)
  rw [mem_pyRange_step hp hdvd]
  constructor
  · rintro ⟨h1, h2, h3⟩
    exact ⟨by omega, by omega, h3⟩
  · rintro ⟨h1, h2, h3⟩
    refine ⟨?_, by omega, h3⟩
    -- a multiple of `p` that is `≥ a` is `≥` the first multiple `≥ a`
    by_contra hlt
    push_neg at hlt
    have hgap : p ∣ ((a + p - 1) / p) * p - m := Nat.dvd_sub' hdvd h3
    rcases hgap with ⟨c, hc⟩
    have hcpos : 0 < c := by
      rcases Nat.eq_zero_or_pos c with rfl | h
      · omega
      · exact h
    have hpc : p * 1 ≤ p * c := Nat.mul_le_mul_left p hcpos
    omega

/-- One small prime's marking pass over a segment (the inner
`for multiple in range(first_multiple, segment_end + 1, p)` loop;
buffer positions are `multiple - segment_start`). -/
def segMarkPrime (segStart segEnd : ℕ) (comp : ℕ → Bool) (p : ℕ) : ℕ → Bool :=
  (pyRange (((segStart + p - 1) / p) * p) (segEnd + 1) p).foldl
    (fun c m => updT c (m - segStart)) comp

/-- The composite buffer of one segment after sieving with every small
prime (initially all-`False`, i.e. all positions assumed prime). -/
def segComp (smallPrimes : List ℕ) (segStart segEnd : ℕ) : ℕ → Bool :=
  smallPrimes.foldl (segMarkPrime segStart segEnd) (fun _ => false)

/-- Number of unmarked positions of the segment buffer
(`sum(1 for is_comp in is_composite if not is_comp)`). -/
def segPrimeCount (smallPrimes : List ℕ) (segStart segEnd : ℕ) : ℕ :=
  (List.range (segEnd - segStart + 1)).countP
    (fun idx => !segComp smallPrimes segStart segEnd idx)

theorem segMarkPrime_spec {segStart segEnd : ℕ} {p : ℕ} (hp : 1 ≤ p)
    (comp : ℕ → Bool) (idx : ℕ) :
    segMarkPrime segStart segEnd comp p idx = true
      ↔ (comp idx = true
          ∨ ∃ m, segStart ≤ m ∧ m ≤ segEnd ∧ p ∣ m ∧ m - segStart = idx) := by
  unfold segMarkPrime
  rw [foldl_updT_map]
  constructor
  · rintro (hc | ⟨m, hm, rfl⟩)
    · exact Or.inl hc
    · rw [segMark_window hp] at hm
      exact Or.inr ⟨m, hm.1, hm.2.1, hm.2.2, rfl⟩
  · rintro (hc | ⟨m, h1, h2, h3, rfl⟩)
    · exact Or.inl hc
    · exact Or.inr ⟨m, (segMark_window hp).mpr ⟨h1, h2, h3⟩, rfl⟩

theorem segComp_spec {smallPrimes : List ℕ} (hsp : ∀ p ∈ smallPrimes, 1 ≤ p)
    (segStart segEnd idx : ℕ) :
    segComp smallPrimes segStart segEnd idx = true
      ↔ ∃ p ∈ smallPrimes, ∃ m, segStart ≤ m ∧ m ≤ segEnd ∧ p ∣ m ∧ m - segStart = idx := by
  unfold segComp
  suffices h : ∀ (l : List ℕ), (∀ p ∈ l, 1 ≤ p) → ∀ (c : ℕ → Bool),
      ((l.foldl (segMarkPrime segStart segEnd) c) idx = true
        ↔ (c idx = true ∨ ∃ p ∈ l, ∃ m, segStart ≤ m ∧ m ≤ segEnd ∧ p ∣ m ∧ m - segStart = idx)) by
    rw [h smallPrimes hsp (fun _ => false)]
    simp
  intro l hl
  induction l with
  | nil => simp
  | cons a t ih =>
    intro c
    simp only [List.foldl_cons]
    rw [ih (fun p hp => hl p (List.mem_cons_of_mem a hp))]
    constructor
    · rintro (hmark | ⟨p, hpt, hm⟩)
      · rcases (segMarkPrime_spec (hl a (List.mem_cons_self a t)) c idx).mp hmark with hc | ⟨m, hm⟩
        · exact Or.inl hc
        · exact Or.inr ⟨a, List.mem_cons_self a t, m, hm⟩
      · exact Or.inr ⟨p, List.mem_cons_of_mem a hpt, hm⟩
    · rintro (hc | ⟨p, hmem, hm⟩)
      · exact Or.inl ((segMarkPrime_spec (hl a (List.mem_cons_self a t)) c idx).mpr (Or.inl hc))
      · rcases List.mem_cons.mp hmem with rfl | hpt
        · exact Or.inl ((segMarkPrime_spec (hl p (List.mem_cons_self p t)) c idx).mpr (Or.inr hm))
        · exact Or.inr ⟨p, hpt, hm⟩

theorem countP_range_shift (L a : ℕ) (P : ℕ → Bool) :
    (List.range L).countP (fun idx => P (a + idx)) = cntIn a L P := by
  induction L with
  | zero => simp [cntIn]
  | succ n ih =>
    rw [List.range_succ, List.countP_append, ih, cntIn_succ]
    simp [List.countP_cons]

/-- A fully sieved segment `[segStart, segEnd] ⊆ (√x, x]` counts exactly the
primes it contains. -/
theorem segPrimeCount_eq {x segStart segEnd : ℕ}
    (hlo : Nat.sqrt x < segStart) (hse : segStart ≤ segEnd) (hhi : segEnd ≤ x) :
    segPrimeCount (simple_sieve (Nat.sqrt x)) segStart segEnd
      = cntIn segStart (segEnd + 1 - segStart) isPrimeB := by
  unfold segPrimeCount
  have hLen : segEnd - segStart + 1 = segEnd + 1 - segStart := by omega
  rw [hLen, ← countP_range_shift (segEnd + 1 - segStart) segStart isPrimeB]
  refine List.countP_congr ?_
  intro idx hidx
  rw [List.mem_range] at hidx
  have hsp : ∀ p ∈ simple_sieve (Nat.sqrt x), 1 ≤ p := by
    intro p hp
    have := (mem_simple_sieve.mp hp).1.two_le
    omega
  have hcomp : segComp (simple_sieve (Nat.sqrt x)) segStart segEnd idx = true
      ↔ ∃ p, Nat.Prime p ∧ p ≤ Nat.sqrt x ∧ p ∣ (segStart + idx) := by
    rw [segComp_spec hsp]
    constructor
    · rintro ⟨p, hmem, m, hm1, hm2, hm3, hm4⟩
      obtain ⟨hp, hple⟩ := mem_simple_sieve.mp hmem
      have hmeq : m = segStart + idx := by omega
      subst hmeq
      exact ⟨p, hp, hple, hm3⟩
    · rintro ⟨p, hp, hple, hdvd⟩
      exact ⟨p, mem_simple_sieve.mpr ⟨hp, hple⟩, segStart + idx, by omega, by omega, hdvd, by omega⟩
  have hwin := prime_iff_no_small_divisor (x := x) (n := segStart + idx) (by omega) (by omega)
  rcases hb : segComp (simple_sieve (Nat.sqrt x)) segStart segEnd idx with _ | _
  · -- unmarked position: prime
    have hnomark : ∀ p, Nat.Prime p → p ≤ Nat.sqrt x → ¬ p ∣ (segStart + idx) := by
      intro p hp hle hdvd
      have hmark := hcomp.mpr ⟨p, hp, hle, hdvd⟩
      rw [hb] at hmark
      exact Bool.noConfusion hmark
    have hprime := hwin.mpr hnomark
    simp [isPrimeB, hprime]
  · -- marked position: composite
    have hnp : ¬ Nat.Prime (segStart + idx) := by
      intro hprime
      obtain ⟨p, hp, hle, hdvd⟩ := hcomp.mp hb
      exact (hwin.mp hprime) p hp hle hdvd
    simp [isPrimeB, hnp]

/-- The `while segment_start <= x` loop of `_segmented_sieve`, accumulating
per-segment counts (`segment_end = min(segment_start + segment_size - 1, x)`
inlined).  The extra `1 ≤ segSize` conjunct in the guard makes the function
total: with `segment_size = 0` the Python loop would never advance
(divergence), and all claims assume `segment_size > 0`. -/
def segLoop (x segSize : ℕ) (smallPrimes : List ℕ) (segStart : ℕ) : ℕ :=
  if _h : segStart ≤ x ∧ 1 ≤ segSize then
    segPrimeCount smallPrimes segStart (min (segStart + segSize - 1) x)
      + segLoop x segSize smallPrimes (min (segStart + segSize - 1) x + 1)
  else 0
termination_by x + 1 - segStart
decreasing_by simp_wf; omega

/-- `_segmented_sieve(x, segment_size)` (pi.py lines 63-141): count primes
`≤ x` with a segmented sieve above `√x`.  The running `count` accumulated in
the Python loop is the base count plus the per-segment sum. -/
def segmented_sieve (x : ℕ) (segSize : ℕ) : ℕ :=
  if x < 2 then 0
  else
    let sqrtX := Nat.sqrt x
    let smallPrimes := simple_sieve sqrtX
    let count := smallPrimes.length
    if x ≤ sqrtX then count
    else count + segLoop x segSize smallPrimes (sqrtX + 1)

theorem segLoop_eq {x segSize : ℕ} (hseg : 1 ≤ segSize) :
    ∀ n segStart, x + 1 - segStart = n → Nat.sqrt x < segStart → segStart ≤ x + 1 →
      piRef (segStart - 1) + segLoop x segSize (simple_sieve (Nat.sqrt x)) segStart = piRef x := by
  intro n
  induction n using Nat.strong_induction_on with
  | _ n ih =>
    intro segStart hn hlo hhi
    by_cases hguard : segStart ≤ x
    · rw [segLoop, dif_pos ⟨hguard, hseg⟩]
      set segEnd := min (segStart + segSize - 1) x with hsegEnd
      have hse1 : segStart ≤ segEnd := by omega
      have hse2 : segEnd ≤ x := by omega
      have hcount := segPrimeCount_eq (x := x) hlo hse1 hse2
      have hrec := ih (x + 1 - (segEnd + 1)) (by omega) (segEnd + 1) rfl (by omega) (by omega)
      have hsplit : piRef segEnd
          = piRef (segStart - 1) + cntIn segStart (segEnd + 1 - segStart) isPrimeB := by
        have hs := piRef_split (a := segStart - 1) (b := segEnd) (by omega)
        have h1 : segStart - 1 + 1 = segStart := by omega
        have h2 : segEnd - (segStart - 1) = segEnd + 1 - segStart := by omega
        rw [h1, h2] at hs
        exact hs
      have hstep : segEnd + 1 - 1 = segEnd := by omega
      rw [hstep] at hrec
      omega
    · rw [segLoop, dif_neg (by omega)]
      have hse : segStart = x + 1 := by omega
      subst hse
      simp

/-- `_segmented_sieve` is an exact prime counter for every positive
segment size. -/
theorem segmented_sieve_eq {x segSize : ℕ} (hseg : 1 ≤ segSize) :
    segmented_sieve x segSize = piRef x := by
  unfold segmented_sieve
  by_cases hx : x < 2
  · rw [if_pos hx]
    interval_cases x
    · rfl
    · rfl
  · rw [if_neg hx]
    have hslt : Nat.sqrt x < x := Nat.sqrt_lt_self (by omega)
    rw [if_neg (by omega)]
    have hloop := segLoop_eq (x := x) hseg (x + 1 - (Nat.sqrt x + 1)) (Nat.sqrt x + 1)
      rfl (by omega) (by omega)
    have h1 : Nat.sqrt x + 1 - 1 = Nat.sqrt x := by omega
    rw [h1] at hloop
    rw [length_simple_sieve]
    omega

/-! ## `pi` dispatcher (pi.py lines 231-296) -/

/-- `pi(x)` (pi.py lines 231-296), threshold dispatch between the full and
the segmented sieve (`SEGMENTED_THRESHOLD = 100_000`, default segment size
`1_000_000`).  The `x < 0` validation lives in the `Except`-returning
wrapper `pi_checked` below; on `ℕ` inputs it never fires. -/
def pi (x : ℕ) : ℕ :=
  if x < 2 then 0
  else if x < 100000 then (simple_sieve x).length
  else segmented_sieve x 1000000

theorem pi_eq_piRef (x : ℕ) : pi x = piRef x := by
  unfold pi
  by_cases h2 : x < 2
  · rw [if_pos h2]
    interval_cases x
    · rfl
    · rfl
  · rw [if_neg h2]
    by_cases hth : x < 100000
    · rw [if_pos hth, length_simple_sieve]
    · rw [if_neg hth, segmented_sieve_eq (by norm_num)]

/-! ## lehmer.py's local `_simple_sieve` (lehmer.py lines 52-81)

lehmer.py keeps its own copy of the sieve, phrased with an `is_prime`
buffer (`True` = still prime) instead of pi.py's `is_composite` buffer.
We embed it separately and prove it pointwise dual to pi.py's sieve. -/

/-- Clearing index `j` of a boolean buffer (`buffer[j] = False`). -/
def updF (buf : ℕ → Bool) (j : ℕ) : ℕ → Bool :=
  fun k => if k = j then false else buf k

/-- Inner marking loop of lehmer.py's sieve:
`for j in range(i*i, limit+1, i): is_prime[j] = False`. -/
def lehmerMark (limit i : ℕ) (buf : ℕ → Bool) : ℕ → Bool :=
  (pyRange (i * i) (limit + 1) i).foldl updF buf

/-- lehmer.py's `is_prime` buffer after the sieving loop
(`for i in range(2, math.isqrt(limit) + 1): if is_prime[i]: ...`). -/
def lehmerSieveBuf (limit : ℕ) : ℕ → Bool :=
  (pyRange 2 (Nat.sqrt limit + 1) 1).foldl
    (fun buf i => if buf i then lehmerMark limit i buf else buf)
    (fun j => !(j == 0 || j == 1))

/-- lehmer.py's `_simple_sieve(limit)` (lines 52-81). -/
def lehmer_simple_sieve (limit : ℕ) : List ℕ :=
  if limit < 2 then []
  else (pyRange 2 (limit + 1) 1).filter (fun i => lehmerSieveBuf limit i)

theorem lehmerMark_dual (limit i : ℕ) {buf comp : ℕ → Bool}
    (h : ∀ k, buf k = !comp k) :
    ∀ k, lehmerMark limit i buf k = !(markComposites limit i comp k) := by
  unfold lehmerMark markComposites
  generalize pyRange (i * i) (limit + 1) i = l
  induction l generalizing buf comp with
  | nil => simpa using h
  | cons a t ih =>
    simp only [List.foldl_cons]
    refine ih ?_
    intro k
    unfold updF updT
    by_cases hk : k = a <;> simp [hk, h k]

theorem lehmerSieveBuf_dual (limit : ℕ) :
    ∀ k, lehmerSieveBuf limit k = !(simpleSieveComp limit k) := by
  unfold lehmerSieveBuf simpleSieveComp
  generalize pyRange 2 (Nat.sqrt limit + 1) 1 = l
  suffices h : ∀ (l : List ℕ) (buf comp : ℕ → Bool), (∀ k, buf k = !comp k) →
      ∀ k, (l.foldl (fun buf i => if buf i then lehmerMark limit i buf else buf) buf) k
        = !((l.foldl (fun comp i => if comp i then comp else markComposites limit i comp) comp) k) by
    refine h l _ _ ?_
    intro k
    by_cases hk0 : k = 0 <;> by_cases hk1 : k = 1 <;> simp [hk0, hk1]
  intro l
  induction l with
  | nil => intro buf comp h k; simpa using h k
  | cons a t ih =>
    intro buf comp h k
    simp only [List.foldl_cons]
    have hba : buf a = !comp a := h a
    by_cases hca : comp a = true
    · rw [if_pos hca]
      rw [hca] at hba
      rw [if_neg (by simp [hba])]
      exact ih buf comp h k
    · rw [if_neg hca]
      have hca' : comp a = false := Bool.eq_false_iff.mpr hca
      rw [hca'] at hba
      rw [if_pos (by simp [hba])]
      exact ih _ _ (lehmerMark_dual limit a h) k

theorem lehmer_simple_sieve_eq (limit : ℕ) :
    lehmer_simple_sieve limit = simple_sieve limit := by
  unfold lehmer_simple_sieve simple_sieve
  by_cases hlim : limit < 2
  · rw [if_pos hlim, if_pos hlim]
  · rw [if_neg hlim, if_neg hlim]
    refine List.filter_congr ?_
    intro i _
    rw [lehmerSieveBuf_dual]

/-- `pi_small(x)` (lehmer.py lines 84-105). -/
def pi_small (x : ℕ) : ℕ :=
  if x < 2 then 0 else (lehmer_simple_sieve x).length

theorem pi_small_eq (x : ℕ) : pi_small x = piRef x := by
  unfold pi_small
  by_cases hx : x < 2
  · rw [if_pos hx]
    interval_cases x
    · rfl
    · rfl
  · rw [if_neg hx, lehmer_simple_sieve_eq, length_simple_sieve]

/-! ## The partial-sieve counting function φ -/

/-- Mathematical reference for φ: the number of `n ∈ [1, x]` divisible by
none of the listed divisors. -/
def phiL (x : ℕ) (ds : List ℕ) : ℕ :=
  cntIn 1 x (fun n => ds.all (fun p => !decide (p ∣ n)))

theorem phiL_nil (x : ℕ) : phiL x [] = x := by
  unfold phiL
  have h : cntIn 1 x (fun n => [].all (fun p => !decide (p ∣ n)))
      = cntIn 1 x (fun _ => true) := by
    refine cntIn_congr ?_
    intro k _ _
    simp
  rw [h]
  unfold cntIn
  simp

/-- Appending a divisor larger than `x` changes nothing. -/
theorem phiL_append_large {x p : ℕ} (hxp : x < p) (ds : List ℕ) :
    phiL x (ds ++ [p]) = phiL x ds := by
  unfold phiL
  refine cntIn_congr ?_
  intro k hk1 hk2
  simp only [List.all_append, List.all_cons, List.all_nil, Bool.and_true]
  have hnd : ¬ p ∣ k := by
    intro hdvd
    have := Nat.le_of_dvd (by omega) hdvd
    omega
  simp [hnd]

theorem all_congr_mem {l : List ℕ} {f g : ℕ → Bool} (h : ∀ q ∈ l, f q = g q) :
    l.all f = l.all g := by
  induction l with
  | nil => rfl
  | cons a t ih =>
    simp only [List.all_cons]
    rw [h a (List.mem_cons_self a t), ih (fun q hq => h q (List.mem_cons_of_mem a hq))]

/-- The φ recurrence, in additive form: for a prime `p` not interfering
with the other (prime, distinct) divisors,
`φ(x, ds ++ [p]) + φ(x / p, ds) = φ(x, ds)`. -/
theorem phiL_append_prime {p : ℕ} (hp : Nat.Prime p) {ds : List ℕ}
    (hds : ∀ q ∈ ds, Nat.Prime q ∧ q ≠ p) :
    ∀ x, phiL x (ds ++ [p]) + phiL (x / p) ds = phiL x ds := by
  intro x
  induction x with
  | zero =>
    rw [Nat.zero_div]
    unfold phiL cntIn
    simp
  | succ x ih =>
    have hxp : x + 1 = 1 + x := by omega
    have hstep : ∀ (l : List ℕ),
        phiL (x + 1) l = phiL x l
          + (if (l.all (fun p => !decide (p ∣ (x + 1)))) then 1 else 0) := by
      intro l
      unfold phiL
      rw [cntIn_succ]
      rw [Nat.add_comm 1 x]
    have hdual : ∀ m, (ds.all (fun q => !decide (q ∣ (p * m)))) =
        (ds.all (fun q => !decide (q ∣ m))) := by
      intro m
      refine all_congr_mem ?_
      intro q hq
      obtain ⟨hqp, hqne⟩ := hds q hq
      have : q ∣ p * m ↔ q ∣ m := by
        constructor
        · intro hdvd
          rcases (Nat.Prime.dvd_mul hqp).mp hdvd with h | h
          · exact absurd ((Nat.prime_dvd_prime_iff_eq hqp hp).mp h) hqne
          · exact h
        · intro hdvd
          exact Dvd.dvd.mul_left hdvd p
      simp [this]
    by_cases hdvd : p ∣ x + 1
    · have hdiv : (x + 1) / p = x / p + 1 := Nat.succ_div_of_dvd hdvd
      rw [hstep (ds ++ [p]), hstep ds, hdiv]
      have hm : phiL (x / p + 1) ds = phiL (x / p) ds
          + (if (ds.all (fun q => !decide (q ∣ (x / p + 1)))) then 1 else 0) := by
        unfold phiL
        rw [cntIn_succ, Nat.add_comm 1 (x / p)]
      rw [hm]
      have hx1 : x + 1 = p * (x / p + 1) := by
        obtain ⟨c, hc⟩ := hdvd
        have hppos : 0 < p := hp.pos
        have hcc : (x + 1) / p = c := by
          rw [hc, Nat.mul_div_cancel_left c hppos]
        have hceq : c = x / p + 1 := by omega
        rw [hc, hceq]
      have hnewP : ((ds ++ [p]).all (fun q => !decide (q ∣ (x + 1)))) = false := by
        simp only [List.all_append, List.all_cons, List.all_nil, Bool.and_true]
        simp [hdvd]
      have hnewds : (ds.all (fun q => !decide (q ∣ (x / p + 1))))
          = (ds.all (fun q => !decide (q ∣ (x + 1)))) := by
        conv_rhs => rw [hx1]
        rw [hdual (x / p + 1)]
      rw [hnewP, hnewds]
      norm_num
      omega
    · have hdiv : (x + 1) / p = x / p := Nat.succ_div_of_not_dvd hdvd
      rw [hstep (ds ++ [p]), hstep ds, hdiv]
      have hnewP : ((ds ++ [p]).all (fun q => !decide (q ∣ (x + 1))))
          = (ds.all (fun q => !decide (q ∣ (x + 1)))) := by
        simp only [List.all_append, List.all_cons, List.all_nil, Bool.and_true]
        simp [hdvd]
      rw [hnewP]
      omega

/-- Subtractive form of the recurrence (`φ` is antitone in the divisor
list, so the subtraction does not truncate). -/
theorem phiL_append_prime_sub {p : ℕ} (hp : Nat.Prime p) {ds : List ℕ}
    (hds : ∀ q ∈ ds, Nat.Prime q ∧ q ≠ p) (x : ℕ) :
    (phiL x (ds ++ [p]) : ℤ) = (phiL x ds : ℤ) - (phiL (x / p) ds : ℤ) := by
  have := phiL_append_prime hp hds x
  omega

theorem phiL_zero (ds : List ℕ) : phiL 0 ds = 0 := rfl

theorem cntIn_or_disjoint (a n : ℕ) (P Q : ℕ → Bool)
    (h : ∀ k, a ≤ k → k < a + n → ¬(P k = true ∧ Q k = true)) :
    cntIn a n (fun k => P k || Q k) = cntIn a n P + cntIn a n Q := by
  induction n with
  | zero => rfl
  | succ n ih =>
    rw [cntIn_succ, cntIn_succ, cntIn_succ,
      ih (fun k hk1 hk2 => h k hk1 (by omega))]
    have := h (a + n) (by omega) (by omega)
    rcases hP : P (a + n) with _ | _ <;> rcases hQ : Q (a + n) with _ | _ <;> simp_all <;> omega

/-- Legendre's identity at the level of `phiL`: counting `[1, x]` against the
complete prime basis below `√x` leaves `1` and the primes in `(√x, x]`. -/
theorem phiL_primes_basis {x : ℕ} (hx : 1 ≤ x) {ds : List ℕ}
    (hds : ∀ p, p ∈ ds ↔ (Nat.Prime p ∧ p ≤ Nat.sqrt x)) :
    phiL x ds + piRef (Nat.sqrt x) = 1 + piRef x := by
  have hsx : Nat.sqrt x ≤ x := Nat.sqrt_le_self x
  have hcongr : phiL x ds
      = cntIn 1 x (fun n => (n == 1) || (isPrimeB n && decide (Nat.sqrt x < n))) := by
    unfold phiL
    refine cntIn_congr ?_
    intro n hn1 hn2
    by_cases h1 : n = 1
    · subst h1
      have hall : ∀ p ∈ ds, (!decide (p ∣ 1)) = true := by
        intro p hp
        have hprime := ((hds p).mp hp).1
        have : ¬ p ∣ 1 := by
          intro hd
          have := Nat.le_of_dvd (by omega) hd
          have := hprime.two_le
          omega
        simp [this]
      have hLHS : ds.all (fun p => !decide (p ∣ 1)) = true := List.all_eq_true.mpr hall
      rw [hLHS]
      norm_num
    · have hn2' : 2 ≤ n := by omega
      by_cases hns : n ≤ Nat.sqrt x
      · -- small composite-or-prime: its least prime factor is in the basis
        have hmem : n.minFac ∈ ds := by
          rw [hds]
          refine ⟨Nat.minFac_prime (by omega), ?_⟩
          exact le_trans (Nat.minFac_le (by omega)) hns
        have hfalse : ds.all (fun p => !decide (p ∣ n)) = false := by
          rw [List.all_eq_false]
          exact ⟨n.minFac, hmem, by simp [Nat.minFac_dvd n]⟩
        rw [hfalse]
        have : ¬ Nat.sqrt x < n := by omega
        simp [h1, this]
      · -- window case
        push_neg at hns
        have hwin := prime_iff_no_small_divisor (x := x) (n := n) hns (by omega)
        have hiff : (ds.all (fun p => !decide (p ∣ n)) = true)
            ↔ Nat.Prime n := by
          rw [List.all_eq_true, hwin]
          constructor
          · intro h p hp hle hdvd
            have := h p ((hds p).mpr ⟨hp, hle⟩)
            simp [hdvd] at this
          · intro h p hp
            obtain ⟨hpp, hple⟩ := (hds p).mp hp
            simp [h p hpp hple]
        have hlt : decide (Nat.sqrt x < n) = true := by simp [hns]
        rcases hb : ds.all (fun p => !decide (p ∣ n)) with _ | _
        · have : ¬ Nat.Prime n := by
            intro hpn
            rw [← hiff] at hpn
            rw [hb] at hpn
            exact Bool.noConfusion hpn
          simp [isPrimeB, h1, this]
        · have hpn := hiff.mp hb
          simp [isPrimeB, h1, hpn, hns]
  rw [hcongr]
  rw [cntIn_or_disjoint 1 x _ _ ?_]
  · -- the `n == 1` part contributes exactly 1, the other part the primes
    -- in `(√x, x]`
    have h1 : cntIn 1 x (fun n => n == 1) = 1 := by
      conv_lhs => rw [show x = 1 + (x - 1) by omega]
      rw [cntIn_split]
      have ha : cntIn 1 1 (fun n => n == 1) = 1 := by decide
      have hb : cntIn (1 + 1) (x - 1) (fun n => n == 1) = 0 := by
        refine cntIn_eq_zero ?_
        intro k hk1 _
        simp only [beq_iff_eq]
        omega
      omega
    have h2 : cntIn 1 x (fun n => isPrimeB n && decide (Nat.sqrt x < n))
        = cntIn (Nat.sqrt x + 1) (x - Nat.sqrt x) isPrimeB := by
      set s := Nat.sqrt x with hs
      conv_lhs => rw [show x = s + (x - s) by omega]
      rw [cntIn_split]
      have ha : cntIn 1 s (fun n => isPrimeB n && decide (s < n)) = 0 := by
        refine cntIn_eq_zero ?_
        intro k hk1 hk2
        have hnk : ¬ s < k := by omega
        simp [hnk]
      have hb : cntIn (1 + s) (x - s)
          (fun n => isPrimeB n && decide (s < n))
          = cntIn (s + 1) (x - s) isPrimeB := by
        rw [Nat.add_comm 1 s]
        refine cntIn_congr ?_
        intro k hk1 _
        have hsk : s < k := by omega
        simp [hsk]
      omega
    have h3 := piRef_split (a := Nat.sqrt x) (b := x) hsx
    omega
  · intro k hk1 hk2
    rintro ⟨hP, hQ⟩
    simp only [beq_iff_eq] at hP
    subst hP
    simp only [Bool.and_eq_true, isPrimeB, decide_eq_true_eq] at hQ
    exact Nat.not_prime_one hQ.1

/-! ## The memoized `phi` of lehmer.py (lines 141-196) -/

/-- Association-list lookup, modelling `cache_key in cache` /
`cache[cache_key]` on the memo dict. -/
def cGet : List ((ℤ × ℕ) × ℤ) → (ℤ × ℕ) → Option ℤ
  | [], _ => none
  | (k, v) :: t, q => if k = q then some v else cGet t q

/-- The intended value of `phi`: `x` itself for `a = 0`, otherwise the
count of `n ∈ [1, x]` coprime to the first `a` basis elements. -/
def phiSpec (x : ℤ) (a : ℕ) (ps : List ℕ) : ℤ :=
  if a = 0 then x else (phiL x.toNat (ps.take a) : ℤ)

/-- A memo table is consistent if every entry stores the intended value. -/
def CacheOK (ps : List ℕ) (c : List ((ℤ × ℕ) × ℤ)) : Prop :=
  ∀ k v, cGet c k = some v → v = phiSpec k.1 k.2 ps

theorem cacheOK_nil (ps : List ℕ) : CacheOK ps [] := by
  intro k v h
  exact Option.noConfusion h

theorem phiSpec_of_nonneg {x : ℤ} (hx : 0 ≤ x) (a : ℕ) (ps : List ℕ) :
    phiSpec x a ps = (phiL x.toNat (ps.take a) : ℤ) := by
  unfold phiSpec
  by_cases ha : a = 0
  · subst ha
    rw [if_pos rfl, List.take_zero, phiL_nil, Int.toNat_of_nonneg hx]
  · rw [if_neg ha]

theorem take_succ_getElem {ps : List ℕ} {a : ℕ} (ha : a < ps.length) :
    ps.take (a + 1) = ps.take a ++ [ps[a]] := by
  rw [List.take_succ, List.getElem?_eq_getElem ha]
  rfl

theorem take_mem_facts {ps : List ℕ} (hsort : List.Pairwise (· < ·) ps)
    (hprime : ∀ p ∈ ps, Nat.Prime p) {a : ℕ} (ha : a < ps.length) :
    ∀ q ∈ ps.take a, Nat.Prime q ∧ q ≠ ps[a] := by
  intro q hq
  have hqps : q ∈ ps := List.take_subset a ps hq
  refine ⟨hprime q hqps, ?_⟩
  obtain ⟨i, hi, hqi⟩ := List.mem_iff_getElem.mp hq
  have hlen : (ps.take a).length = min a ps.length := List.length_take a ps
  have hia : i < a := by omega
  have hips : i < ps.length := by omega
  have hgt : (ps.take a)[i] = ps[i] := List.getElem_take ..
  have hlt : ps[i] < ps[a] :=
    List.pairwise_iff_getElem.mp hsort i a hips ha hia
  omega

theorem int_div_ofNat {x : ℤ} (hx : 0 ≤ x) (p : ℕ) :
    x / (p : ℤ) = ((x.toNat / p : ℕ) : ℤ) := by
  conv_lhs => rw [← Int.toNat_of_nonneg hx]
  exact (Int.ofNat_div x.toNat p).symm

theorem phiSpec_lt1 {x : ℤ} (hx : x < 1) (a : ℕ) (ps : List ℕ) :
    phiSpec x (a + 1) ps = 0 := by
  unfold phiSpec
  rw [if_neg (by omega)]
  have hz : x.toNat = 0 := Int.toNat_of_nonpos (by omega)
  rw [hz, phiL_zero]
  rfl

theorem phiSpec_succ_lt {ps : List ℕ} {a : ℕ} (ha : a < ps.length) {x : ℤ}
    (hx : 1 ≤ x) (hxp : x < (ps.getD a 0 : ℤ)) :
    phiSpec x (a + 1) ps = phiSpec x a ps := by
  rw [phiSpec_of_nonneg (by omega), phiSpec_of_nonneg (by omega)]
  rw [List.getD_eq_getElem ps 0 ha] at hxp
  rw [take_succ_getElem ha]
  have hlt : x.toNat < ps[a] := by omega
  rw [phiL_append_large hlt]

theorem phiSpec_succ_ge {ps : List ℕ} (hsort : List.Pairwise (· < ·) ps)
    (hprime : ∀ p ∈ ps, Nat.Prime p) {a : ℕ} (ha : a < ps.length) {x : ℤ}
    (hx : 1 ≤ x) :
    phiSpec x (a + 1) ps
      = phiSpec x a ps - phiSpec (x / (ps.getD a 0 : ℤ)) a ps := by
  have hget : ps.getD a 0 = ps.get ⟨a, ha⟩ := List.getD_eq_getElem ps 0 ha
  have hp : Nat.Prime (ps.get ⟨a, ha⟩) := hprime _ (ps.getElem_mem ha)
  have hdiv : x / (ps.getD a 0 : ℤ) = ((x.toNat / ps.getD a 0 : ℕ) : ℤ) :=
    int_div_ofNat (by omega) _
  rw [phiSpec_of_nonneg (by omega : (0:ℤ) ≤ x),
    phiSpec_of_nonneg (by omega : (0:ℤ) ≤ x), hdiv,
    phiSpec_of_nonneg (by exact_mod_cast Int.ofNat_nonneg _), take_succ_getElem ha]
  rw [Int.toNat_ofNat]
  rw [hget]
  exact phiL_append_prime_sub hp (take_mem_facts hsort hprime ha) x.toNat

/-- The size-capped store of `phi`
(`if len(cache) < 10000: cache[cache_key] = result` then `return result`),
applied to a (result, cache) pair. -/
def phiStore (x : ℤ) (a : ℕ) (rc : ℤ × List ((ℤ × ℕ) × ℤ)) :
    ℤ × List ((ℤ × ℕ) × ℤ) :=
  if rc.2.length < 10000 then (rc.1, ((x, a), rc.1) :: rc.2) else rc

/-- `phi(x, a, primes, cache)` (lehmer.py lines 141-196), in state-passing
style: the result pair is (returned value, cache after the call), the dict
being mutated in place in Python.  Fidelity notes: the memo lookup happens
before the base cases, exactly as in the source (the lookup is written once
in the source and is duplicated here into the two arms of the arity match
only to drive the structural recursion; semantics are unchanged); base-case
returns do not store; `primes[a - 1]` is modelled with `getD` (an out-of-range index would
raise in Python and is unreachable under the documented precondition
`len(primes) ≥ a`); `x // p_a` is `Int` division, which agrees with Python
floor division on the operands reachable here (`x ≥ 1` in that branch, and
`p_a ≥ 2` for a prime basis). -/
def phi (x : ℤ) : (a : ℕ) → (primes : List ℕ) → (cache : List ((ℤ × ℕ) × ℤ)) →
    ℤ × List ((ℤ × ℕ) × ℤ)
  | 0, _, cache =>
    match cGet cache (x, 0) with
    | some v => (v, cache)
    | none => (x, cache)
  | a' + 1, primes, cache =>
    match cGet cache (x, a' + 1) with
    | some v => (v, cache)
    | none =>
      if x < 1 then (0, cache)
      else if x < (primes.getD a' 0 : ℤ) then
        phiStore x (a' + 1) (phi x a' primes cache)
      else
        phiStore x (a' + 1)
          ((phi x a' primes cache).1
              - (phi (x / (primes.getD a' 0 : ℤ)) a' primes
                  (phi x a' primes cache).2).1,
            (phi (x / (primes.getD a' 0 : ℤ)) a' primes
              (phi x a' primes cache).2).2)

/-- `phi(x, a, primes)` with the defaulted `cache=None` (a fresh dict). -/
def phiTop (x : ℤ) (a : ℕ) (primes : List ℕ) : ℤ :=
  (phi x a primes []).1

theorem phiStore_fst (x : ℤ) (a : ℕ) (rc : ℤ × List ((ℤ × ℕ) × ℤ)) :
    (phiStore x a rc).1 = rc.1 := by
  unfold phiStore
  split <;> rfl

theorem phiStore_cacheOK {ps : List ℕ} {x : ℤ} {a : ℕ}
    {rc : ℤ × List ((ℤ × ℕ) × ℤ)} (hc : CacheOK ps rc.2)
    (hr : rc.1 = phiSpec x a ps) : CacheOK ps (phiStore x a rc).2 := by
  unfold phiStore
  split
  · intro k v h
    unfold cGet at h
    by_cases hk : (x, a) = k
    · rw [if_pos hk] at h
      have hv : v = rc.1 := by
        injection h with h'
        exact h'.symm
      subst hk
      rw [hv, hr]
    · rw [if_neg hk] at h
      exact hc k v h
  · exact hc

/-- Correctness of the memoized `phi` against `phiSpec`, for an ascending
prime basis with at least `a` elements, threading cache consistency. -/
theorem phi_correct {ps : List ℕ} (hsort : List.Pairwise (· < ·) ps)
    (hprime : ∀ p ∈ ps, Nat.Prime p) :
    ∀ (a : ℕ), a ≤ ps.length → ∀ (x : ℤ) (c : List ((ℤ × ℕ) × ℤ)), CacheOK ps c →
      (phi x a ps c).1 = phiSpec x a ps ∧ CacheOK ps (phi x a ps c).2 := by
  intro a
  induction a with
  | zero =>
    intro _ x c hc
    rw [phi]
    split
    · rename_i v hg
      exact ⟨hc (x, 0) v hg, hc⟩
    · refine ⟨?_, hc⟩
      unfold phiSpec
      rw [if_pos rfl]
  | succ a' ih =>
    intro ha x c hc
    have ha' : a' < ps.length := by omega
    rw [phi]
    split
    · rename_i v hg
      exact ⟨hc (x, a' + 1) v hg, hc⟩
    · by_cases hx1 : x < 1
      · rw [if_pos hx1]
        exact ⟨(phiSpec_lt1 hx1 a' ps).symm, hc⟩
      · rw [if_neg hx1]
        have hx1' : 1 ≤ x := by omega
        obtain ⟨hval, hcache⟩ := ih (by omega) x c hc
        by_cases hxp : x < (ps.getD a' 0 : ℤ)
        · rw [if_pos hxp]
          have hr : (phi x a' ps c).1 = phiSpec x (a' + 1) ps := by
            rw [hval, phiSpec_succ_lt ha' hx1' hxp]
          constructor
          · rw [phiStore_fst, hr]
          · exact phiStore_cacheOK hcache hr
        · rw [if_neg hxp]
          obtain ⟨hval2, hcache2⟩ :=
            ih (by omega) (x / (ps.getD a' 0 : ℤ)) (phi x a' ps c).2 hcache
          have hr : (phi x a' ps c).1
              - (phi (x / (ps.getD a' 0 : ℤ)) a' ps (phi x a' ps c).2).1
              = phiSpec x (a' + 1) ps := by
            rw [hval, hval2, phiSpec_succ_ge hsort hprime ha' hx1']
          constructor
          · rw [phiStore_fst]
            exact hr
          · exact phiStore_cacheOK (x := x) (a := a' + 1) hcache2 hr

/-- `phiTop` (the defaulted-cache `phi`) computes `phiSpec`. -/
theorem phiTop_eq {ps : List ℕ} (hsort : List.Pairwise (· < ·) ps)
    (hprime : ∀ p ∈ ps, Nat.Prime p) {a : ℕ} (ha : a ≤ ps.length) (x : ℤ) :
    phiTop x a ps = phiSpec x a ps :=
  (phi_correct hsort hprime a ha x [] (cacheOK_nil ps)).1

theorem getD_take_succ (l : List ℕ) (a : ℕ) :
    (l.take (a + 1)).getD a 0 = l.getD a 0 := by
  by_cases h : a < l.length
  · have hlen : a < (l.take (a + 1)).length := by
      rw [List.length_take]
      omega
    rw [List.getD_eq_getElem l 0 h, List.getD_eq_getElem _ 0 hlen, List.getElem_take ..]
  · rw [List.getD_eq_default l 0 (by omega), List.getD_eq_default _ 0 ?_]
    rw [List.length_take]
    omega

/-- The value and cache behaviour of `phi` depend only on the first `a`
elements of the basis. -/
theorem phi_take_eq : ∀ (a : ℕ) (ps qs : List ℕ), ps.take a = qs.take a →
    ∀ (x : ℤ) (c : List ((ℤ × ℕ) × ℤ)), phi x a ps c = phi x a qs c := by
  intro a
  induction a with
  | zero =>
    intro ps qs _ x c
    rw [phi, phi]
  | succ a' ih =>
    intro ps qs htake x c
    have htake' : ps.take a' = qs.take a' := by
      have h1 : (ps.take (a' + 1)).take a' = (qs.take (a' + 1)).take a' := by rw [htake]
      rw [List.take_take, List.take_take] at h1
      have hm : min a' (a' + 1) = a' := by omega
      rwa [hm] at h1
    have hgd : ps.getD a' 0 = qs.getD a' 0 := by
      rw [← getD_take_succ ps a', htake, getD_take_succ qs a']
    rw [phi, phi, hgd]
    rw [ih ps qs htake' x c]
    rw [ih ps qs htake' (x / (qs.getD a' 0 : ℤ)) ((phi x a' qs c).2)]

/-! ## `phi_bruteforce` (lehmer.py lines 108-138) -/

/-- `phi_bruteforce(x, a, primes_first_a)` (lehmer.py lines 108-138): the
brute-force oracle counting `n ∈ [1, x]` with `n % p != 0` for each of the
first `a` listed primes (the inner `for i in range(a)` loop with `break` is
the `all` over the first `a` elements; an index out of range raises in
Python and is unreachable under the documented precondition). -/
def phi_bruteforce (x : ℤ) (a : ℕ) (primes_first_a : List ℕ) : ℤ :=
  if a = 0 then x
  else if x < 1 then 0
  else ((List.range' 1 x.toNat).countP
    (fun n => (primes_first_a.take a).all (fun p => !(n % p == 0))) : ℤ)

theorem phi_bruteforce_eq (x : ℤ) (a : ℕ) (ps : List ℕ) :
    phi_bruteforce x a ps = phiSpec x a ps := by
  unfold phi_bruteforce phiSpec
  by_cases ha : a = 0
  · rw [if_pos ha, if_pos ha]
  · rw [if_neg ha, if_neg ha]
    by_cases hx : x < 1
    · rw [if_pos hx]
      have hz : x.toNat = 0 := Int.toNat_of_nonpos (by omega)
      rw [hz, phiL_zero]
      rfl
    · rw [if_neg hx]
      congr 1
      unfold phiL cntIn
      refine List.countP_congr ?_
      intro n hn
      rw [List.mem_range'_1] at hn
      have heq : ((ps.take a).all fun p => !n % p == 0)
          = ((ps.take a).all fun p => !decide (p ∣ n)) := by
        refine all_congr_mem ?_
        intro p _
        rcases Nat.eq_zero_or_pos p with rfl | hp
        · have h1 : (n % 0 == 0) = false := by
            simp only [Nat.mod_zero, beq_eq_false_iff_ne, ne_eq]
            omega
          have h2 : decide ((0 : ℕ) ∣ n) = false := by
            simp only [decide_eq_false_iff_not, zero_dvd_iff]
            omega
          rw [h1, h2]
        · have hbd : (n % p == 0) = decide (p ∣ n) := by
            rcases hd : decide (p ∣ n) with _ | _
            · simp only [decide_eq_false_iff_not] at hd
              simp only [beq_eq_false_iff_ne, ne_eq]
              rw [Nat.dvd_iff_mod_eq_zero] at hd
              exact hd
            · simp only [decide_eq_true_eq] at hd
              rw [Nat.dvd_iff_mod_eq_zero] at hd
              simp [hd]
          rw [hbd]
      rw [heq]

/-! ## `lehmer_pi` (lehmer.py lines 199-263) -/

/-- `lehmer_pi(x)` (lehmer.py lines 199-263): Legendre's formula
`π(x) = φ(x, a) + a - 1` with `a = π(√x)`, with hard-coded small cases,
the `SMALL_CUTOFF = 10_000` sieve delegation, and the defensive
`len(primes) < a` fallback.  `math.isqrt(x)` is `Nat.sqrt`; the input is
`ℤ` to keep the (unvalidated) behaviour on negative `x`: `x < 2` returns
`0`. -/
def lehmer_pi (x : ℤ) : ℤ :=
  if x < 2 then 0
  else if x = 2 then 1
  else if x < 5 then 2
  else if x < 10000 then (pi_small x.toNat : ℤ)
  else
    if (lehmer_simple_sieve (Nat.sqrt x.toNat)).length < pi_small (Nat.sqrt x.toNat)
    then (pi_small x.toNat : ℤ)
    else (phi x (pi_small (Nat.sqrt x.toNat)) (lehmer_simple_sieve (Nat.sqrt x.toNat)) []).1
          + (pi_small (Nat.sqrt x.toNat) : ℤ) - 1

/-- On non-negative inputs, `lehmer_pi` computes the exact prime count. -/
theorem lehmer_pi_eq (x : ℕ) : lehmer_pi (x : ℤ) = (piRef x : ℤ) := by
  unfold lehmer_pi
  by_cases hx2 : x < 2
  · rw [if_pos (by exact_mod_cast hx2)]
    interval_cases x
    · rfl
    · rfl
  · rw [if_neg (by exact_mod_cast hx2)]
    by_cases hxe2 : x = 2
    · subst hxe2
      rw [if_pos (by norm_num)]
      rw [piRef_two]
      rfl
    · rw [if_neg (by exact_mod_cast hxe2)]
      by_cases hx5 : x < 5
      · rw [if_pos (by exact_mod_cast hx5)]
        interval_cases x
        · exact absurd rfl hxe2
        · rw [show piRef 3 = 2 from by decide]
          rfl
        · rw [show piRef 4 = 2 from by decide]
          rfl
      · rw [if_neg (by exact_mod_cast hx5)]
        by_cases hxc : x < 10000
        · rw [if_pos (by exact_mod_cast hxc), Int.toNat_natCast, pi_small_eq]
        · rw [if_neg (by exact_mod_cast hxc), Int.toNat_natCast]
          -- the Legendre branch
          have hlen : (lehmer_simple_sieve (Nat.sqrt x)).length = piRef (Nat.sqrt x) := by
            rw [lehmer_simple_sieve_eq, length_simple_sieve]
          have ha : pi_small (Nat.sqrt x) = piRef (Nat.sqrt x) := pi_small_eq _
          rw [if_neg (by omega)]
          have hsieve : lehmer_simple_sieve (Nat.sqrt x) = simple_sieve (Nat.sqrt x) :=
            lehmer_simple_sieve_eq _
          have hsort := sorted_simple_sieve (Nat.sqrt x)
          have hprime : ∀ p ∈ simple_sieve (Nat.sqrt x), Nat.Prime p := by
            intro p hp
            exact (mem_simple_sieve.mp hp).1
          have haslen : pi_small (Nat.sqrt x) ≤ (simple_sieve (Nat.sqrt x)).length := by
            rw [length_simple_sieve, ha]
          have hphi := (phi_correct hsort hprime (pi_small (Nat.sqrt x)) haslen
            (x : ℤ) [] (cacheOK_nil _)).1
          rw [hsieve, hphi]
          have hxpos : (0 : ℤ) ≤ (x : ℤ) := by positivity
          rw [phiSpec_of_nonneg hxpos, Int.toNat_natCast]
          have htake : (simple_sieve (Nat.sqrt x)).take (pi_small (Nat.sqrt x))
              = simple_sieve (Nat.sqrt x) := by
            have : pi_small (Nat.sqrt x) = (simple_sieve (Nat.sqrt x)).length := by
              rw [length_simple_sieve, ha]
            rw [this, List.take_length]
          rw [htake]
          have hleg := @phiL_primes_basis x (by omega)
            (simple_sieve (Nat.sqrt x)) (fun p => mem_simple_sieve)
          rw [ha]
          omega

/-! ## `_pi_legendre` (pi.py lines 144-192) -/

/-- Memo-table lookup for `_pi_legendre`'s inner `phi` (keys `(x_val, k)`). -/
def memoGet : List ((ℕ × ℕ) × ℤ) → (ℕ × ℕ) → Option ℤ
  | [], _ => none
  | (k, v) :: t, q => if k = q then some v else memoGet t q

/-- The inner `phi(x_val, k)` of `_pi_legendre` (pi.py lines 165-190), in
state-passing style over the memo dict.  Its base cases are `k == 0 → x_val`
and `x_val < 2 → 0` (in that order, before the memo check), and the store
`memo[key] = result` is unconditional.  Argument order here is
`(k, x_val, memo)` so the recursion is structural on `k`. -/
def piLegendrePhi (primes_sqrt : List ℕ) :
    (k : ℕ) → (x_val : ℕ) → (memo : List ((ℕ × ℕ) × ℤ)) → ℤ × List ((ℕ × ℕ) × ℤ)
  | 0, x_val, memo => ((x_val : ℤ), memo)
  | k' + 1, x_val, memo =>
    if x_val < 2 then (0, memo)
    else
      match memoGet memo (x_val, k' + 1) with
      | some v => (v, memo)
      | none =>
        ((piLegendrePhi primes_sqrt k' x_val memo).1
            - (piLegendrePhi primes_sqrt k' (x_val / primes_sqrt.getD k' 0)
                (piLegendrePhi primes_sqrt k' x_val memo).2).1,
          ((x_val, k' + 1),
              (piLegendrePhi primes_sqrt k' x_val memo).1
                - (piLegendrePhi primes_sqrt k' (x_val / primes_sqrt.getD k' 0)
                    (piLegendrePhi primes_sqrt k' x_val memo).2).1)
            :: (piLegendrePhi primes_sqrt k' (x_val / primes_sqrt.getD k' 0)
                (piLegendrePhi primes_sqrt k' x_val memo).2).2)

/-- `_pi_legendre(x, primes_sqrt)` (pi.py lines 144-192):
`φ(x, a) + a - 1` with `a = len(primes_sqrt)` and a fresh memo dict. -/
def pi_legendre (x : ℕ) (primes_sqrt : List ℕ) : ℤ :=
  (piLegendrePhi primes_sqrt primes_sqrt.length x []).1 + (primes_sqrt.length : ℤ) - 1

/-! ## `pi` validation wrapper, `pi_range` (pi.py lines 275-318) -/

/-- The input validation of `pi(x)` (pi.py lines 275-278) on integer
inputs: negative `x` raises `ValueError`.  (The `TypeError` branch for
non-integer arguments is outside an integer-typed embedding.) -/
def pi_checked (x : ℤ) : Except String ℕ :=
  if x < 0 then Except.error "ValueError: x must be non-negative"
  else Except.ok (pi x.toNat)

/-- `pi_range(x, y)` (pi.py lines 299-318): `0` for `x >= y`, otherwise
`pi(y) - pi(x)` — each `pi` call validating its own argument, `pi(y)`
evaluated first as in the source. -/
def pi_range (x y : ℤ) : Except String ℤ :=
  if x ≥ y then Except.ok 0
  else do
    let cy ← pi_checked y
    let cx ← pi_checked x
    Except.ok ((cy : ℤ) - (cx : ℤ))

/-! ## `pi_parallel` (pi.py lines 321-532) -/

/-- The loop body of `_create_segment_ranges` (pi.py lines 352-362):
`size = base + (1 if i < rem else 0)`, break when the next start exceeds
`end`, else append `(current, min(current + size - 1, end))` and advance.
(`current + size - 1` uses truncated `ℕ` subtraction; the call sites keep
`current ≥ 1`, where it agrees with Python.) -/
def csrGo (base rem stop workers : ℕ) (i current : ℕ) : List (ℕ × ℕ) :=
  if i < workers then
    if current > stop then []
    else (current, min (current + (base + (if i < rem then 1 else 0)) - 1) stop)
        :: csrGo base rem stop workers (i + 1)
            (current + (base + (if i < rem then 1 else 0)) - 1 + 1)
  else []
termination_by workers - i

/-- `_create_segment_ranges(start, end, num_workers)` (pi.py lines
321-364).  The `num_workers <= 0` case raises `ValueError` in Python; it is
unreachable from `pi_parallel` (workers are validated before the call) and
modelled as the empty list. -/
def create_segment_ranges (start stop workers : ℕ) : List (ℕ × ℕ) :=
  if start > stop then []
  else if workers = 0 then []
  else csrGo ((stop - start + 1) / workers) ((stop - start + 1) % workers)
      stop workers 0 start

/-- One worker's marking pass in `_count_segment_primes`, with the
`if first_multiple == p: first_multiple += p` skip (pi.py lines 391-403). -/
def countSegMarkPrime (segStart segEnd : ℕ) (comp : ℕ → Bool) (p : ℕ) : ℕ → Bool :=
  (pyRange
      (if ((segStart + p - 1) / p) * p = p
        then ((segStart + p - 1) / p) * p + p
        else ((segStart + p - 1) / p) * p)
      (segEnd + 1) p).foldl
    (fun c m => updT c (m - segStart)) comp

/-- The composite buffer of `_count_segment_primes` after sieving with
every small prime. -/
def countSegComp (smallPrimes : List ℕ) (segStart segEnd : ℕ) : ℕ → Bool :=
  smallPrimes.foldl (countSegMarkPrime segStart segEnd) (fun _ => false)

/-- `_count_segment_primes(segment_start, segment_end, small_primes)`
(pi.py lines 367-408). -/
def count_segment_primes (segStart segEnd : ℕ) (smallPrimes : List ℕ) : ℕ :=
  if segStart > segEnd then 0
  else
    (List.range (segEnd - segStart + 1)).countP
      (fun idx => !countSegComp smallPrimes segStart segEnd idx)

/-- `pi_parallel(x, workers, threshold)` (pi.py lines 411-532) with the
worker fan-out modelled as an in-order sequential map over the segment
partition: `executor.map` preserves segment order and each worker is a pure
function of its segment, so the aggregation `count += sum(segment_counts)`
is this `List.sum`.  The `try/except` fallback to sequential `pi` cannot
trigger in the pure model and is not represented.  Input validation lives
in the `pi_parallel` wrapper below. -/
def pi_parallel_core (x workers : ℕ) (threshold : ℤ) : ℕ :=
  if (x : ℤ) < threshold then pi x
  else if x < 2 then 0
  else
    if x ≤ Nat.sqrt x then (simple_sieve (Nat.sqrt x)).length
    else (simple_sieve (Nat.sqrt x)).length
        + ((create_segment_ranges (Nat.sqrt x + 1) x workers).map
            (fun s => count_segment_primes s.1 s.2 (simple_sieve (Nat.sqrt x)))).sum

/-- The validation and worker-defaulting wrapper of `pi_parallel` (pi.py
lines 479-499): `x < 0` raises, an explicit `workers <= 0` raises, and
`workers=None` resolves to `min(os.cpu_count() or 1, 8)` — the
environment-dependent `os.cpu_count() or 1` is the parameter
`cpuDefault`. -/
def pi_parallel (x : ℤ) (workers : Option ℤ) (threshold : ℤ) (cpuDefault : ℕ) :
    Except String ℕ :=
  if x < 0 then Except.error "ValueError: x must be non-negative"
  else if _h : workers.isSome ∧ workers.getD 0 ≤ 0 then
    Except.error "ValueError: workers must be positive"
  else match workers with
    | some w => Except.ok (pi_parallel_core x.toNat w.toNat threshold)
    | none => Except.ok (pi_parallel_core x.toNat (min cpuDefault 8) threshold)

/-! ## lookup.py: `_binary_search_pi` and `resolve_internal_with_pi`

The primality/stepping oracles live in `src/lulzprime/primality.py`, which
is not part of the embedded sources; the claims assume them correct, and
they are modelled from the spec below.  The π oracle injected by the claims
is the dispatcher `pi`. -/

/-- Modelled from the spec: `prev_prime(n) -> largest prime strictly less
than n` — the stepping oracle of the missing primality module, assumed
correct by the claims (out of range, i.e. `n ≤ 2`, it returns the junk
value `0`; Python would raise or loop there, and the call sites never reach
it). -/
def prev_prime (n : ℕ) : ℕ :=
  Nat.findGreatest (fun p => Nat.Prime p) (n - 1)

theorem next_prime_exists (n : ℕ) : ∃ p, n < p ∧ Nat.Prime p := by
  obtain ⟨p, hle, hp⟩ := Nat.exists_infinite_primes (n + 1)
  exact ⟨p, by omega, hp⟩

/-- Modelled from the spec: `next_prime(n) -> smallest prime strictly
greater than n` — the stepping oracle of the missing primality module,
assumed correct by the claims. -/
def next_prime (n : ℕ) : ℕ :=
  Nat.find (next_prime_exists n)

theorem pi_mono {a b : ℕ} (h : a ≤ b) : pi a ≤ pi b := by
  rw [pi_eq_piRef, pi_eq_piRef]
  exact piRef_mono h

theorem pi_unbounded (k : ℕ) : ∃ N, k ≤ pi N := by
  obtain ⟨N, hN⟩ := piRef_unbounded k
  exact ⟨N, by rwa [pi_eq_piRef]⟩

/-- The least `N` with `index ≤ pi N` (used only as a termination measure
for the widening and forward-correction loops). -/
def piBound (index : ℕ) : ℕ :=
  Nat.find (pi_unbounded index)

theorem piBound_spec (index : ℕ) : index ≤ pi (piBound index) :=
  Nat.find_spec (pi_unbounded index)

theorem lt_piBound {index y : ℕ} (h : pi y < index) : y < piBound index := by
  by_contra hc
  push_neg at hc
  have := pi_mono hc
  have := piBound_spec index
  omega

/-- The `lo` adjustment of `_binary_search_pi` (lookup.py lines 113-116):
`if pi(lo) > target_index: lo = 2`.  The initial
`lo = max(2, int(guess * 0.9))` is the parameter `lo0` (the floating-point
seed only positions the bracket; see `binary_search_pi`). -/
def bracketLo (index lo0 : ℕ) : ℕ :=
  if pi lo0 > index then 2 else lo0

/-- The `hi` widening loop of `_binary_search_pi` (lookup.py lines
118-121): `while pi(hi) < target_index: hi *= 2`.  The extra `1 ≤ hi`
conjunct makes the function total: from `hi = 0` the Python loop never
terminates, and both initializations give `hi ≥ 2`. -/
def widenHi (index hi : ℕ) : ℕ :=
  if pi hi < index ∧ 1 ≤ hi then widenHi index (hi * 2) else hi
termination_by piBound index - hi
decreasing_by
  rename_i h
  have h1 := lt_piBound h.1
  have h2 : 1 ≤ hi := h.2
  omega

/-- The bisection loop of `_binary_search_pi` (lookup.py lines 124-131):
`while lo < hi: mid = (lo + hi) // 2; ...`. -/
def bisect (index lo hi : ℕ) : ℕ :=
  if lo < hi then
    if pi ((lo + hi) / 2) < index then bisect index ((lo + hi) / 2 + 1) hi
    else bisect index lo ((lo + hi) / 2)
  else lo
termination_by hi - lo
decreasing_by
  · omega
  · omega

/-- `_binary_search_pi(target_index, guess)` (lookup.py lines 89-131).
The two floating-point seed values — `lo0 = max(2, int(guess * 0.9))` and
`hi0 = int(n*(log n + log log n)*1.1)` for `index ≥ 6`, else `2 * guess` —
are taken as parameters: they are heuristic bracket positions computed with
`math.log`, both `≥ 2` for every positive integer `guess`, and the
remainder of the function is exact integer arithmetic on them. -/
def binary_search_pi (index lo0 hi0 : ℕ) : ℕ :=
  bisect index (bracketLo index lo0) (widenHi index hi0)

/-- The backward correction loop of `resolve_internal_with_pi`
(lookup.py lines 70-71): `while pi(x) > index: x = prev_prime(x - 1)`. -/
def stepDown (index x : ℕ) : ℕ :=
  if pi x > index then stepDown index (prev_prime (x - 1)) else x
termination_by x
decreasing_by
  rename_i h
  have hx1 : 1 ≤ x := by
    by_contra hc
    have hx0 : x = 0 := by omega
    rw [hx0] at h
    have : pi 0 = 0 := rfl
    omega
  have := Nat.findGreatest_le (P := fun p => Nat.Prime p) (x - 1 - 1)
  unfold prev_prime
  omega

/-- The forward correction loop of `resolve_internal_with_pi`
(lookup.py lines 76-77): `while pi(x) < index: x = next_prime(x + 1)`. -/
def stepUp (index x : ℕ) : ℕ :=
  if pi x < index then stepUp index (next_prime (x + 1)) else x
termination_by piBound index - x
decreasing_by
  rename_i h
  have h1 := lt_piBound h
  have h2 : x + 1 < next_prime (x + 1) := (Nat.find_spec (next_prime_exists (x + 1))).1
  omega

/-- `resolve_internal_with_pi(index, pi_fn)` (lookup.py lines 38-86),
instantiated at the claims' injected counting oracle `pi_fn := pi` (the
threshold dispatcher).  Step 1's external `forecast(index)` call only feeds
the floating-point bracket seeds, which appear here as the `lo0`/`hi0`
parameters of `binary_search_pi`. -/
def resolve_internal_with_pi (index lo0 hi0 : ℕ) : Except String ℕ :=
  let x0 := binary_search_pi index lo0 hi0
  let x1 := if isPrimeB x0 then x0 else prev_prime x0
  let x2 := stepDown index x1
  let x3 := stepUp index x2
  if pi x3 ≠ index then Except.error "RuntimeError: Resolution failed"
  else Except.ok x3

theorem bracketLo_le {index : ℕ} (hidx : 1 ≤ index) (lo0 : ℕ) :
    pi (bracketLo index lo0) ≤ index := by
  unfold bracketLo
  split
  · have h2 : pi 2 = 1 := by
      rw [pi_eq_piRef]
      decide
    omega
  · omega

theorem widenHi_ge (index : ℕ) :
    ∀ n hi, piBound index - hi = n → 1 ≤ hi → index ≤ pi (widenHi index hi) := by
  intro n
  induction n using Nat.strong_induction_on with
  | _ n ih =>
    intro hi hn h1
    rw [widenHi]
    by_cases hguard : pi hi < index ∧ 1 ≤ hi
    · rw [if_pos hguard]
      have hlt := lt_piBound hguard.1
      exact ih (piBound index - hi * 2) (by omega) (hi * 2) rfl (by omega)
    · rw [if_neg hguard]
      push_neg at hguard
      have hnot : ¬ pi hi < index := by
        intro hpi
        have := hguard hpi
        omega
      omega

theorem bisect_spec (index : ℕ) :
    ∀ d lo hi, hi - lo = d → index ≤ pi hi → lo ≤ hi →
      lo ≤ bisect index lo hi ∧ bisect index lo hi ≤ hi
        ∧ index ≤ pi (bisect index lo hi)
        ∧ (bisect index lo hi = lo ∨ pi (bisect index lo hi - 1) < index) := by
  intro d
  induction d using Nat.strong_induction_on with
  | _ d ih =>
    intro lo hi hd hhi hle
    rw [bisect]
    by_cases hlh : lo < hi
    · rw [if_pos hlh]
      have hmid1 : lo ≤ (lo + hi) / 2 := by omega
      have hmid2 : (lo + hi) / 2 < hi := by omega
      by_cases hm : pi ((lo + hi) / 2) < index
      · rw [if_pos hm]
        obtain ⟨ha, hb, hc, hd'⟩ := ih (hi - ((lo + hi) / 2 + 1)) (by omega)
          ((lo + hi) / 2 + 1) hi rfl hhi (by omega)
        refine ⟨by omega, hb, hc, ?_⟩
        rcases hd' with heq | hlt
        · right
          rw [heq]
          simpa using hm
        · right
          exact hlt
      · rw [if_neg hm]
        push_neg at hm
        obtain ⟨ha, hb, hc, hd'⟩ := ih ((lo + hi) / 2 - lo) (by omega)
          lo ((lo + hi) / 2) rfl hm (by omega)
        exact ⟨ha, by omega, hc, hd'⟩
    · rw [if_neg hlh]
      have : lo = hi := by omega
      subst this
      exact ⟨le_refl _, le_refl _, hhi, Or.inl rfl⟩

/-- A point where `pi` steps from below `index` to at least `index` is the
`index`-th prime: it is prime and `pi` there equals `index` exactly. -/
theorem pi_jump {index r : ℕ} (hidx : 1 ≤ index) (hge : index ≤ pi r)
    (hlt : pi (r - 1) < index) : Nat.Prime r ∧ pi r = index := by
  have hr1 : 1 ≤ r := by
    by_contra hc
    have hr0 : r = 0 := by omega
    subst hr0
    have h0 : pi 0 = 0 := rfl
    omega
  rw [pi_eq_piRef] at hge hlt ⊢
  have hsucc := piRef_succ (r - 1)
  have hreq : r - 1 + 1 = r := by omega
  rw [hreq] at hsucc
  rcases hb : isPrimeB r with _ | _
  · rw [hb] at hsucc
    simp at hsucc
    omega
  · have hprime : Nat.Prime r := by
      unfold isPrimeB at hb
      rwa [decide_eq_true_eq] at hb
    rw [hb] at hsucc
    simp at hsucc
    exact ⟨hprime, by omega⟩

theorem exists_prime_le_of_piRef_pos {n : ℕ} (h : 1 ≤ piRef n) :
    ∃ p, Nat.Prime p ∧ p ≤ n := by
  unfold piRef cntIn at h
  have := List.countP_pos_iff.mp (by omega : 0 < (List.range' 1 n).countP isPrimeB)
  obtain ⟨p, hmem, hp⟩ := this
  rw [List.mem_range'_1] at hmem
  unfold isPrimeB at hp
  rw [decide_eq_true_eq] at hp
  exact ⟨p, hp, by omega⟩

/-- Correcting a non-prime point with `pi x = index ≥ 1` by stepping to the
previous prime lands on a prime with the same count. -/
theorem prev_prime_correct {index x : ℕ} (hidx : 1 ≤ index)
    (hpi : pi x = index) (hnp : ¬ Nat.Prime x) :
    Nat.Prime (prev_prime x) ∧ pi (prev_prime x) = index := by
  have hpos : 1 ≤ piRef x := by
    rw [← pi_eq_piRef]
    omega
  obtain ⟨p, hp, hple⟩ := exists_prime_le_of_piRef_pos hpos
  have hpx : p ≠ x := fun h => hnp (h ▸ hp)
  have hple1 : p ≤ x - 1 := by omega
  have hq : Nat.Prime (prev_prime x) :=
    Nat.findGreatest_spec (P := fun p => Nat.Prime p) hple1 hp
  refine ⟨hq, ?_⟩
  have hqle : prev_prime x ≤ x - 1 := Nat.findGreatest_le (x - 1)
  have hnone : ∀ m, prev_prime x < m → m ≤ x → ¬ Nat.Prime m := by
    intro m hm1 hm2 hmp
    by_cases hmx : m = x
    · exact hnp (hmx ▸ hmp)
    · exact Nat.findGreatest_is_greatest hm1 (by omega) hmp
  have := piRef_eq_of_no_prime (q := prev_prime x) (r := x) (by omega) hnone
  rw [pi_eq_piRef, ← this, ← pi_eq_piRef]
  omega

theorem stepDown_eq {index x : ℕ} (h : pi x = index) : stepDown index x = x := by
  rw [stepDown, if_neg (by omega)]

theorem stepUp_eq {index x : ℕ} (h : pi x = index) : stepUp index x = x := by
  rw [stepUp, if_neg (by omega)]

/-- The binary search lands on a point `r` with `pi r = index`, and at any
such point the correction chain is the identity, so the pipeline returns a
verified prime.  (This is the heart of claim C1.) -/
theorem binary_search_pi_count {index : ℕ} (hidx : 1 ≤ index) (lo0 hi0 : ℕ)
    (hhi0 : 1 ≤ hi0) :
    pi (binary_search_pi index lo0 hi0) = index
      ∧ (Nat.Prime (binary_search_pi index lo0 hi0)
          ∨ binary_search_pi index lo0 hi0 = bracketLo index lo0) := by
  unfold binary_search_pi
  have hL := bracketLo_le hidx lo0
  have hH := widenHi_ge index (piBound index - hi0) hi0 rfl hhi0
  by_cases hLH : bracketLo index lo0 ≤ widenHi index hi0
  · obtain ⟨ha, hb, hc, hd⟩ := bisect_spec index
      (widenHi index hi0 - bracketLo index lo0) _ _ rfl hH hLH
    rcases hd with heq | hlt
    · rw [heq] at hc ⊢
      exact ⟨by omega, Or.inr rfl⟩
    · obtain ⟨hprime, hcount⟩ := pi_jump hidx hc hlt
      exact ⟨hcount, Or.inl hprime⟩
  · push_neg at hLH
    rw [bisect, if_neg (by omega)]
    have := pi_mono (le_of_lt hLH)
    exact ⟨by omega, Or.inr rfl⟩

/-- Claim C1 core: the full pipeline returns the exact `index`-th prime.
Whatever point the search lands on, after the prime

correction the result `r` is prime with `pi r = index`, and the internal
verification cannot fire. -/
theorem resolve_internal_with_pi_spec {index : ℕ} (hidx : 1 ≤ index)
    (lo0 hi0 : ℕ) (hhi0 : 1 ≤ hi0) :
    ∃ r, resolve_internal_with_pi index lo0 hi0 = Except.ok r
      ∧ Nat.Prime r ∧ pi r = index := by
  obtain ⟨hcount, _⟩ := binary_search_pi_count hidx lo0 hi0 hhi0
  simp only [resolve_internal_with_pi]
  rcases hb : isPrimeB (binary_search_pi index lo0 hi0) with _ | _
  · -- not prime: step to the previous prime
    have hnp : ¬ Nat.Prime (binary_search_pi index lo0 hi0) := by
      unfold isPrimeB at hb
      rwa [decide_eq_false_iff_not] at hb
    obtain ⟨hq, hqc⟩ := prev_prime_correct hidx hcount hnp
    rw [if_neg (show ¬(false = true) by simp)]
    rw [stepDown_eq hqc, stepUp_eq hqc]
    rw [if_neg (by omega)]
    exact ⟨_, rfl, hq, hqc⟩
  · have hp : Nat.Prime (binary_search_pi index lo0 hi0) := by
      unfold isPrimeB at hb
      rwa [decide_eq_true_eq] at hb
    rw [if_pos (show true = true from rfl)]
    rw [stepDown_eq hcount, stepUp_eq hcount]
    rw [if_neg (by omega)]
    exact ⟨_, rfl, hp, hcount⟩

/-! ## Correctness of the parallel path -/

theorem countSegMarkPrime_eq {segStart segEnd p : ℕ} (hp : 1 ≤ p)
    (hlt : p < segStart) (comp : ℕ → Bool) :
    countSegMarkPrime segStart segEnd comp p = segMarkPrime segStart segEnd comp p := by
  unfold countSegMarkPrime segMarkPrime
  have hceil := (ceil_multiple (a := segStart) hp).1
  rw [if_neg (by omega)]

theorem countSegComp_eq {sp : List ℕ} {segStart segEnd : ℕ}
    (hsp : ∀ p ∈ sp, 1 ≤ p ∧ p < segStart) :
    countSegComp sp segStart segEnd = segComp sp segStart segEnd := by
  unfold countSegComp segComp
  suffices h : ∀ (l : List ℕ), (∀ p ∈ l, 1 ≤ p ∧ p < segStart) →
      ∀ (c : ℕ → Bool), l.foldl (countSegMarkPrime segStart segEnd) c
        = l.foldl (segMarkPrime segStart segEnd) c by
    exact h sp hsp _
  intro l
  induction l with
  | nil =>
    intro _ c
    rfl
  | cons a t ih =>
    intro hl c
    simp only [List.foldl_cons]
    obtain ⟨ha1, ha2⟩ := hl a (List.mem_cons_self a t)
    rw [countSegMarkPrime_eq ha1 ha2]
    exact ih (fun p hp => hl p (List.mem_cons_of_mem a hp)) _

theorem count_segment_primes_eq {x a b : ℕ} (hlo : Nat.sqrt x < a) (hab : a ≤ b)
    (hbx : b ≤ x) :
    count_segment_primes a b (simple_sieve (Nat.sqrt x)) = cntIn a (b + 1 - a) isPrimeB := by
  unfold count_segment_primes
  rw [if_neg (by omega)]
  have helem : ∀ p ∈ simple_sieve (Nat.sqrt x), 1 ≤ p ∧ p < a := by
    intro p hp
    obtain ⟨hpp, hple⟩ := mem_simple_sieve.mp hp
    exact ⟨by have := hpp.two_le; omega, by omega⟩
  rw [countSegComp_eq helem]
  have hseg := segPrimeCount_eq (x := x) hlo hab hbx
  unfold segPrimeCount at hseg
  exact hseg

/-- The total size of the partitons not yet emitted by `csrGo`. -/
def csrRemaining (base rem workers i : ℕ) : ℕ :=
  if i < workers then
    (base + (if i < rem then 1 else 0)) + csrRemaining base rem workers (i + 1)
  else 0
termination_by workers - i

theorem csrRemaining_formula (base rem workers : ℕ) (hrw : rem ≤ workers) :
    ∀ d i, workers - i = d →
      csrRemaining base rem workers i = (workers - i) * base + (rem - i) := by
  intro d
  induction d using Nat.strong_induction_on with
  | _ d ih =>
    intro i hd
    rw [csrRemaining]
    by_cases hiw : i < workers
    · rw [if_pos hiw]
      rw [ih (workers - (i + 1)) (by omega) (i + 1) rfl]
      have he : workers - (i + 1) = workers - i - 1 := by omega
      rw [he]
      have hmul : (workers - i) * base = (workers - i - 1) * base + base := by
        obtain ⟨k, hk⟩ : ∃ k, workers - i = k + 1 := ⟨workers - i - 1, by omega⟩
        rw [hk]
        have hk1 : k + 1 - 1 = k := by omega
        rw [hk1, Nat.succ_mul]
      by_cases hir : i < rem
      · rw [if_pos hir]
        omega
      · rw [if_neg hir]
        omega
    · rw [if_neg hiw]
      have hz : workers - i = 0 := by omega
      rw [hz, Nat.zero_mul]
      omega

theorem csrGo_count {x stop : ℕ} (hstopx : stop ≤ x) (base rem workers : ℕ) :
    ∀ d i current, workers - i = d → 1 ≤ current → Nat.sqrt x < current →
      current ≤ stop + 1 →
      csrRemaining base rem workers i = stop + 1 - current →
      piRef (current - 1)
        + ((csrGo base rem stop workers i current).map
            (fun s => count_segment_primes s.1 s.2 (simple_sieve (Nat.sqrt x)))).sum
        = piRef stop := by
  intro d
  induction d using Nat.strong_induction_on with
  | _ d ih =>
    intro i current hd h1 hsq hle hrem
    rw [csrGo]
    by_cases hiw : i < workers
    · rw [if_pos hiw]
      by_cases hcs : current > stop
      · rw [if_pos hcs]
        have hcur : current = stop + 1 := by omega
        subst hcur
        simp
      · rw [if_neg hcs]
        rw [csrRemaining, if_pos hiw] at hrem
        set sz := base + (if i < rem then 1 else 0) with hsz
        have hszpos : 1 ≤ sz := by
          by_contra hc
          have hsz0 : sz = 0 := by omega
          have hbase : base = 0 := by
            rcases Nat.eq_zero_or_pos base with h | h
            · exact h
            · exfalso
              rw [hsz] at hsz0
              omega
          have hir : ¬ i < rem := by
            intro hir
            rw [hsz, if_pos hir] at hsz0
            omega
          -- all later sizes are zero, so the remaining total is zero
          have hzero : ∀ d' j, workers - j = d' → rem ≤ j →
              csrRemaining 0 rem workers j = 0 := by
            intro d'
            induction d' using Nat.strong_induction_on with
            | _ d' ih' =>
              intro j hd' hrj
              rw [csrRemaining]
              by_cases hjw : j < workers
              · rw [if_pos hjw, if_neg (by omega)]
                rw [ih' (workers - (j + 1)) (by omega) (j + 1) rfl (by omega)]
              · rw [if_neg hjw]
          have := hzero (workers - (i + 1)) (i + 1) rfl (by omega)
          rw [hbase] at hrem
          rw [this] at hrem
          rw [hsz, hbase, if_neg hir] at hsz0
          simp at hrem
          omega
        have hszle : sz ≤ stop + 1 - current := by omega
        have hmin : min (current + sz - 1) stop = current + sz - 1 := by omega
        rw [hmin]
        have hcount := count_segment_primes_eq (x := x) hsq
          (by omega : current ≤ current + sz - 1) (by omega : current + sz - 1 ≤ x)
        have harith : current + sz - 1 + 1 - current = sz := by omega
        rw [harith] at hcount
        have hsplit : piRef (current + sz - 1)
            = piRef (current - 1) + cntIn current sz isPrimeB := by
          have hs := piRef_split (a := current - 1) (b := current + sz - 1) (by omega)
          have e1 : current - 1 + 1 = current := by omega
          have e2 : current + sz - 1 - (current - 1) = sz := by omega
          rw [e1, e2] at hs
          exact hs
        have hnext : current + sz - 1 + 1 = current + sz := by omega
        rw [hnext]
        have hrec := ih (workers - (i + 1)) (by omega) (i + 1) (current + sz) rfl
          (by omega) (by omega) (by omega) (by omega)
        have e3 : current + sz - 1 = current + sz - 1 := rfl
        simp only [List.map_cons, List.sum_cons]
        rw [hcount]
        have e4 : current + sz - 1 = (current + sz) - 1 := by omega
        rw [e4] at hsplit
        omega
    · rw [if_neg hiw]
      rw [csrRemaining, if_neg hiw] at hrem
      have hcur : current = stop + 1 := by omega
      subst hcur
      simp

theorem pi_parallel_core_eq (x workers : ℕ) (threshold : ℤ) (hw : 1 ≤ workers) :
    pi_parallel_core x workers threshold = pi x := by
  unfold pi_parallel_core
  by_cases hth : (x : ℤ) < threshold
  · rw [if_pos hth]
  · rw [if_neg hth]
    by_cases hx2 : x < 2
    · rw [if_pos hx2]
      unfold pi
      rw [if_pos hx2]
    · rw [if_neg hx2]
      have hslt : Nat.sqrt x < x := Nat.sqrt_lt_self (by omega)
      rw [if_neg (by omega)]
      unfold create_segment_ranges
      rw [if_neg (by omega), if_neg (by omega)]
      set total := x - (Nat.sqrt x + 1) + 1 with htotal
      have hrw : total % workers < workers := Nat.mod_lt _ (by omega)
      have hdm := Nat.div_add_mod total workers
      have hrem0 : csrRemaining (total / workers) (total % workers) workers 0
          = x + 1 - (Nat.sqrt x + 1) := by
        rw [csrRemaining_formula (total / workers) (total % workers) workers
          (by omega) workers 0 rfl]
        have : workers - 0 = workers := by omega
        rw [this]
        omega
      have hgo := @csrGo_count x x (le_refl x)
        (total / workers) (total % workers) workers workers 0 (Nat.sqrt x + 1)
        (by omega) (by omega) (by omega) (by omega) hrem0
      have he : Nat.sqrt x + 1 - 1 = Nat.sqrt x := by omega
      rw [he] at hgo
      rw [length_simple_sieve]
      rw [pi_eq_piRef]
      omega

/-! ## Claim theorems -/

/-- C1: for every index ≥ 1, with the forecast producing a positive guess
(the float bracket seeds `lo0`, `hi0` it induces are arbitrary, with
`hi0 ≥ 1` — both source initializations give `hi0 ≥ 2`), and the
primality/stepping oracles correct (as modelled from the spec),
`resolve_internal_with_pi(index, pi)` returns a value `r` with
`is_prime(r)` and `pi(r) = index`, and never raises its
internal-consistency error. -/
theorem claim_C1_resolve_exact (index lo0 hi0 : ℕ) (hidx : 1 ≤ index)
    (hhi0 : 1 ≤ hi0) :
    ∃ r, resolve_internal_with_pi index lo0 hi0 = Except.ok r
      ∧ Nat.Prime r ∧ pi r = index :=
  resolve_internal_with_pi_spec hidx lo0 hi0 hhi0

theorem claim_C1_resolve_exact_witness :
    1 ≤ 1 ∧ 1 ≤ 2
      ∧ ∃ r, resolve_internal_with_pi 1 2 2 = Except.ok r
          ∧ Nat.Prime r ∧ pi r = 1 :=
  ⟨by decide, by decide, claim_C1_resolve_exact 1 2 2 (by decide) (by decide)⟩

/-- C2: for every x ≥ 0, `lehmer_pi(x)` equals `pi(x)`: the Legendre path
(with its hard-coded small cases and `SMALL_CUTOFF = 10_000` delegation)
agrees exactly with the threshold-dispatched `pi`. -/
theorem claim_C2_lehmer_pi_eq_pi (x : ℕ) : lehmer_pi (x : ℤ) = (pi x : ℤ) := by
  rw [lehmer_pi_eq, pi_eq_piRef]

/-- C3: for every x ≥ 0 and every segment_size > 0,
`_segmented_sieve(x, segment_size)` equals `len(_simple_sieve(x))`; in
particular the `SEGMENTED_THRESHOLD` dispatch never affects the value of
`pi`. -/
theorem claim_C3_segmented_eq_simple (x segSize : ℕ) (hseg : 1 ≤ segSize) :
    segmented_sieve x segSize = (simple_sieve x).length := by
  rw [segmented_sieve_eq hseg, length_simple_sieve]

theorem claim_C3_segmented_eq_simple_witness :
    1 ≤ 7 ∧ segmented_sieve 30 7 = (simple_sieve 30).length :=
  ⟨by decide, claim_C3_segmented_eq_simple 30 7 (by decide)⟩

/-- C4: for every x ≥ 0, every 0 ≤ a ≤ len(primes) and every ascending
prime basis, the memoized `phi` of lehmer.py (with its defaulted
`cache=None`) equals the brute-force `phi_bruteforce`; in particular
`phi(x, 0, primes) = x` and `phi(0, a, primes) = 0` for a ≥ 1. -/
theorem claim_C4_phi_eq_bruteforce (x : ℤ) (a : ℕ) (ps : List ℕ)
    (hx : 0 ≤ x) (hsort : List.Pairwise (· < ·) ps)
    (hprime : ∀ p ∈ ps, Nat.Prime p) (hlen : a ≤ ps.length) :
    phiTop x a ps = phi_bruteforce x a ps
      ∧ phiTop x 0 ps = x
      ∧ (1 ≤ a → phiTop 0 a ps = 0) := by
  refine ⟨?_, ?_, ?_⟩
  · rw [phiTop_eq hsort hprime hlen, phi_bruteforce_eq]
  · rw [phiTop_eq hsort hprime (by omega)]
    unfold phiSpec
    rw [if_pos rfl]
  · intro ha1
    rw [phiTop_eq hsort hprime hlen]
    unfold phiSpec
    rw [if_neg (by omega)]
    have hz : (0 : ℤ).toNat = 0 := rfl
    rw [hz, phiL_zero]
    rfl

theorem claim_C4_phi_eq_bruteforce_witness :
    (0 : ℤ) ≤ 10 ∧ List.Pairwise (· < ·) [2, 3, 5]
      ∧ (∀ p ∈ [2, 3, 5], Nat.Prime p) ∧ 2 ≤ ([2, 3, 5] : List ℕ).length
      ∧ (phiTop 10 2 [2, 3, 5] = phi_bruteforce 10 2 [2, 3, 5]
          ∧ phiTop 10 0 [2, 3, 5] = 10
          ∧ (1 ≤ 2 → phiTop 0 2 [2, 3, 5] = 0)) :=
  ⟨by decide, by decide, by decide, by decide,
    claim_C4_phi_eq_bruteforce 10 2 [2, 3, 5] (by decide) (by decide)
      (by decide) (by decide)⟩

/-- C5 (code bug): `_pi_legendre` is claimed exact with the inner `phi`
vanishing exactly for x < 1, but the code's inner base case is `x_val < 2`,
so `phi(1, 1) = 0` instead of `1`, and at the failing input `x = 25` with
the complete basis `[2, 3, 5]` below `√25` the function returns `8` while
the exact count is `pi(25) = 9`. -/
theorem claim_C5_legendre_failing :
    pi_legendre 25 [2, 3, 5] = 8
      ∧ (piLegendrePhi [2, 3, 5] 1 1 []).1 = 0
      ∧ pi 25 = 9 ∧ piRef 25 = 9 := by
  refine ⟨by decide, by decide, ?_, by decide⟩
  rw [pi_eq_piRef]
  decide

/-- C6 (code bug) at the failing input `index = 4`, `guess = 10` (so
`lo0 = int(10 * 0.9) = 9` and `hi0 = 2 * 10 = 20`): after the initial
bracketing `lo` stays `9` (the reset only checks `pi(lo) > index`, and
`pi(9) = 4`), the claimed bracket invariant `pi(lo - 1) < index` fails
(`pi(8) = 4`), and the search returns `9` although the minimal `x` with
`pi(x) ≥ 4` is `7` — contradicting both the invariant and the function's
docstring. -/
theorem claim_C6_bracket_violation :
    bracketLo 4 9 = 9
      ∧ ¬ (pi (bracketLo 4 9 - 1) < 4)
      ∧ binary_search_pi 4 9 20 = 9
      ∧ pi 7 = 4 ∧ pi 6 = 3 := by
  have h6 : pi 6 = 3 := by rw [pi_eq_piRef]; decide
  have h7 : pi 7 = 4 := by rw [pi_eq_piRef]; decide
  have h8 : pi 8 = 4 := by rw [pi_eq_piRef]; decide
  have h9 : pi 9 = 4 := by rw [pi_eq_piRef]; decide
  have h10 : pi 10 = 4 := by rw [pi_eq_piRef]; decide
  have h11 : pi 11 = 5 := by rw [pi_eq_piRef]; decide
  have h14 : pi 14 = 6 := by rw [pi_eq_piRef]; decide
  have h20 : pi 20 = 8 := by rw [pi_eq_piRef]; decide
  have hlo : bracketLo 4 9 = 9 := by
    unfold bracketLo
    rw [if_neg (by omega)]
  have hhi : widenHi 4 20 = 20 := by
    rw [widenHi, if_neg (by omega)]
  have hb1 : bisect 4 9 20 = bisect 4 9 14 := by
    rw [bisect]
    simp only [show ((9:ℕ) + 20) / 2 = 14 by norm_num]
    rw [if_pos (by norm_num), if_neg (by omega)]
  have hb2 : bisect 4 9 14 = bisect 4 9 11 := by
    rw [bisect]
    simp only [show ((9:ℕ) + 14) / 2 = 11 by norm_num]
    rw [if_pos (by norm_num), if_neg (by omega)]
  have hb3 : bisect 4 9 11 = bisect 4 9 10 := by
    rw [bisect]
    simp only [show ((9:ℕ) + 11) / 2 = 10 by norm_num]
    rw [if_pos (by norm_num), if_neg (by omega)]
  have hb4 : bisect 4 9 10 = bisect 4 9 9 := by
    rw [bisect]
    simp only [show ((9:ℕ) + 10) / 2 = 9 by norm_num]
    rw [if_pos (by norm_num), if_neg (by omega)]
  have hb5 : bisect 4 9 9 = 9 := by
    rw [bisect, if_neg (by norm_num)]
  have hsearch : binary_search_pi 4 9 20 = 9 := by
    unfold binary_search_pi
    rw [hlo, hhi, hb1, hb2, hb3, hb4, hb5]
  refine ⟨hlo, ?_, hsearch, h7, h6⟩
  rw [hlo, show (9:ℕ) - 1 = 8 from rfl]
  omega

/-- C7 (counterexample to the claim as stated): the claim extends
`pi_range(x, y) = pi(y) - pi(x)` to negative `x < y`, but the source's
`pi(x)` call validates its argument, so `pi_range(-1, 10)` raises
`ValueError` instead of returning a value. -/
theorem claim_C7_counterexample :
    pi_range (-1) 10 = Except.error "ValueError: x must be non-negative" := rfl

/-- C7 (amended): `pi_range(x, y)` returns `0` when `x ≥ y`, returns
`pi(y) - pi(x)` when `0 ≤ x < y`, and raises `ValueError` (from the inner
`pi` validation) when `x < 0 < y - x`, i.e. the claimed difference formula
holds only on non-negative `x`. -/
theorem claim_C7_range_checked (x y : ℤ) :
    (x ≥ y → pi_range x y = Except.ok 0)
      ∧ (0 ≤ x → x < y →
          pi_range x y = Except.ok ((pi y.toNat : ℤ) - (pi x.toNat : ℤ)))
      ∧ (x < 0 → x < y →
          pi_range x y = Except.error "ValueError: x must be non-negative") := by
  refine ⟨fun h => ?_, fun hx hxy => ?_, fun hx hxy => ?_⟩
  · unfold pi_range
    rw [if_pos h]
  · unfold pi_range pi_checked
    rw [if_neg (by omega), if_neg (by omega), if_neg (by omega)]
    rfl
  · unfold pi_range pi_checked
    rw [if_neg (by omega)]
    by_cases hy : y < 0
    · rw [if_pos hy]
      rfl
    · rw [if_neg hy, if_pos hx]
      rfl

theorem claim_C7_range_checked_witness :
    pi_range 12 3 = Except.ok 0
      ∧ pi_range 3 12 = Except.ok ((pi (12 : ℤ).toNat : ℤ) - (pi (3 : ℤ).toNat : ℤ))
      ∧ pi_range (-2) 3 = Except.error "ValueError: x must be non-negative" :=
  ⟨(claim_C7_range_checked 12 3).1 (by decide),
   (claim_C7_range_checked 3 12).2.1 (by decide) (by decide),
   (claim_C7_range_checked (-2) 3).2.2 (by decide) (by decide)⟩

/-- C8 (counterexample to the claim as stated): `lehmer_pi` performs no
input validation — for a negative argument its first branch `x < 2`
silently returns `0` instead of raising. -/
theorem claim_C8_counterexample : lehmer_pi (-1) = 0 := rfl

/-- C8 (amended): `pi` (modelled as `pi_checked`) and `pi_parallel` reject
`x < 0` with a `ValueError`, and `pi_parallel` rejects an explicit
`workers ≤ 0` with a `ValueError`; but `lehmer_pi` does NOT validate:
for `x < 0` it silently returns `0`. -/
theorem claim_C8_validation (x w threshold : ℤ) (wo : Option ℤ) (cd : ℕ) :
    (x < 0 → (∃ e, pi_checked x = Except.error e)
        ∧ ∃ e, pi_parallel x wo threshold cd = Except.error e)
      ∧ (w ≤ 0 → ∃ e, pi_parallel x (some w) threshold cd = Except.error e)
      ∧ (x < 0 → lehmer_pi x = 0) := by
  refine ⟨fun hx => ⟨⟨"ValueError: x must be non-negative", ?_⟩,
      ⟨"ValueError: x must be non-negative", ?_⟩⟩, fun hw => ?_, fun hx => ?_⟩
  · unfold pi_checked
    rw [if_pos hx]
  · unfold pi_parallel
    rw [if_pos hx]
  · by_cases hx : x < 0
    · exact ⟨"ValueError: x must be non-negative", by
        unfold pi_parallel
        rw [if_pos hx]⟩
    · exact ⟨"ValueError: workers must be positive", by
        unfold pi_parallel
        rw [if_neg hx, dif_pos ⟨rfl, hw⟩]⟩
  · unfold lehmer_pi
    rw [if_pos (by omega)]

theorem claim_C8_validation_witness :
    (∃ e, pi_checked (-1) = Except.error e)
      ∧ (∃ e, pi_parallel (-1) none 5 4 = Except.error e)
      ∧ (∃ e, pi_parallel 7 (some 0) 5 4 = Except.error e)
      ∧ lehmer_pi (-1) = 0 :=
  ⟨((claim_C8_validation (-1) 0 5 none 4).1 (by decide)).1,
   ((claim_C8_validation (-1) 0 5 none 4).1 (by decide)).2,
   (claim_C8_validation 7 0 5 none 4).2.1 (by decide),
   (claim_C8_validation (-1) 0 5 none 4).2.2 (by decide)⟩

/-- C9: for every x ≥ 0, workers ≥ 1 and any threshold, `pi_parallel`
(with the worker fan-out modelled as an in-order sequential map over the
deterministic segment partition of `(⌊√x⌋, x]`) returns exactly `pi(x)`:
the result is independent of the worker count, the threshold, and the
machine's CPU count. -/
theorem claim_C9_parallel_eq_pi (x workers : ℕ) (threshold : ℤ) (cd : ℕ)
    (hw : 1 ≤ workers) :
    pi_parallel (x : ℤ) (some (workers : ℤ)) threshold cd = Except.ok (pi x) := by
  unfold pi_parallel
  rw [if_neg (by omega),
    dif_neg (by simp only [Option.isSome_some, Option.getD_some, true_and]; omega)]
  show Except.ok (pi_parallel_core (x : ℤ).toNat (workers : ℤ).toNat threshold) = _
  rw [Int.toNat_natCast, Int.toNat_natCast, pi_parallel_core_eq x workers threshold hw]

theorem claim_C9_parallel_eq_pi_witness :
    1 ≤ 3 ∧ pi_parallel ((30 : ℕ) : ℤ) (some ((3 : ℕ) : ℤ)) 0 4 = Except.ok (pi 30) :=
  ⟨by decide, claim_C9_parallel_eq_pi 30 3 0 4 (by decide)⟩

/-- C10 (implicit noninterference): the value of `phi` depends only on
`(x, a)` and the first `a` basis elements — for any two ascending prime
bases agreeing on their first `a` elements and any two caches that are
each `None` or empty, the returned values coincide. -/
theorem claim_C10_phi_noninterference (x : ℤ) (a : ℕ) (ps qs : List ℕ)
    (c1 c2 : Option (List ((ℤ × ℕ) × ℤ))) (hx : 0 ≤ x)
    (hsp : List.Pairwise (· < ·) ps) (hsq : List.Pairwise (· < ·) qs)
    (hpp : ∀ p ∈ ps, Nat.Prime p) (hpq : ∀ p ∈ qs, Nat.Prime p)
    (hlp : a ≤ ps.length) (hlq : a ≤ qs.length)
    (hagree : ps.take a = qs.take a)
    (hc1 : c1 = none ∨ c1 = some []) (hc2 : c2 = none ∨ c2 = some []) :
    (phi x a ps (c1.getD [])).1 = (phi x a qs (c2.getD [])).1 := by
  have h1 : c1.getD [] = [] := by rcases hc1 with rfl | rfl <;> rfl
  have h2 : c2.getD [] = [] := by rcases hc2 with rfl | rfl <;> rfl
  rw [h1, h2, phi_take_eq a ps qs hagree x []]

theorem claim_C10_phi_noninterference_witness :
    (0 : ℤ) ≤ 6 ∧ List.Pairwise (· < ·) [2, 3, 5]
      ∧ List.Pairwise (· < ·) [2, 3, 7]
      ∧ (∀ p ∈ [2, 3, 5], Nat.Prime p) ∧ (∀ p ∈ [2, 3, 7], Nat.Prime p)
      ∧ 2 ≤ ([2, 3, 5] : List ℕ).length ∧ 2 ≤ ([2, 3, 7] : List ℕ).length
      ∧ ([2, 3, 5] : List ℕ).take 2 = ([2, 3, 7] : List ℕ).take 2
      ∧ (phi 6 2 [2, 3, 5] ((none : Option (List ((ℤ × ℕ) × ℤ))).getD [])).1
          = (phi 6 2 [2, 3, 7] ((some ([] : List ((ℤ × ℕ) × ℤ))).getD [])).1 :=
  ⟨by decide, by decide, by decide, by decide, by decide, by decide, by decide,
   by decide,
   claim_C10_phi_noninterference 6 2 [2, 3, 5] [2, 3, 7] none (some [])
     (by decide) (by decide) (by decide) (by decide) (by decide) (by decide)
     (by decide) (by decide) (Or.inl rfl) (Or.inr rfl)⟩
